import Mathlib

/-!
# Option pricing: closed-form and lattice valuation, portfolio risk

A shallow embedding of `options.cpp` / `options.hpp`.

* `double` values are elements of an ordered field `α` with the four libm
  functions the program calls (`exp`, `log`, `sqrt`, `erfc`) supplied by the class
  `MathFns`; every theorem is stated at `α = ℝ` with the real functions, so the
  results are statements about exact real arithmetic, not about rounding.
* `int` values are `Int`; a conversion `int → double` is the cast `Int → α`, and
  `int(x)` on a double is truncation toward zero (`truncToInt`).
* `vector<double>` is `List α`.  A read or write `vals[i]` outside the buffer, and an
  exception thrown by `vals.at(i)`, are both the result `none`.
* The process-wide generator behind `simStandardNormal` is an explicit stream
  `Nat → α` of the draws still to come; a function that draws returns the advanced
  stream next to its value.
-/

namespace OptionPricing

/-- The libm functions called by the program, as operations on the number type. -/
class MathFns (α : Type) where
  /-- Models `exp`. -/
  exp : α → α
  /-- Models `log`. -/
  log : α → α
  /-- Models `sqrt`. -/
  sqrt : α → α
  /-- Models `std::erfc`. -/
  erfc : α → α

/-- The four concrete classes of `options.hpp`. -/
inductive Variant where
  | EuropeanCall
  | EuropeanPut
  | AmericanCall
  | AmericanPut
  deriving DecidableEq, Repr

/-- An object of class `Option`: the four protected attributes, the `dp` member of the
style subclasses, and the tag of its concrete class. -/
structure Instrument (α : Type) where
  variant : Variant
  Strike : α
  Sigma : α
  T : α
  RiskFreeRate : α
  dp : Int

/-- Class `Position`: a weight and the instrument pointed to. -/
structure Position (α : Type) where
  weight : α
  option : Instrument α

/-- Class `Portfolio`: the vector `Positions`. -/
structure Portfolio (α : Type) where
  Positions : List (Position α)

section Program

variable {α : Type} [LinearOrderedField α] [FloorRing α] [MathFns α]

open MathFns

/-- Function `simStandardNormal`: the next draw, and the generator advanced by one. -/
def simStandardNormal (g : Nat → α) : α × (Nat → α) :=
  (g 0, fun k => g (k + 1))

/-- Function `normalCDF`: `erfc(-x / sqrt(2)) / 2`. -/
def normalCDF (x : α) : α :=
  erfc (-x / sqrt 2) / 2

/-- The four `getIntrinsicValue` overrides. -/
def Instrument.getIntrinsicValue (o : Instrument α) (spot : α) : α :=
  match o.variant with
  | Variant.EuropeanCall => max (spot - o.Strike) 0
  | Variant.EuropeanPut => max (o.Strike - spot) 0
  | Variant.AmericanCall => max (spot - o.Strike) 0
  | Variant.AmericanPut => max (o.Strike - spot) 0

/-- The two `getCurrentExerciseValue` overrides (`EuropeanOption`, `AmericanOption`). -/
def Instrument.getCurrentExerciseValue (o : Instrument α) (spot t : α) : α :=
  match o.variant with
  | Variant.EuropeanCall => if t = o.T then o.getIntrinsicValue spot else 0
  | Variant.EuropeanPut => if t = o.T then o.getIntrinsicValue spot else 0
  | Variant.AmericanCall => o.getIntrinsicValue spot
  | Variant.AmericanPut => o.getIntrinsicValue spot

/-- Method `Option::calcBinomialNodeValue`. -/
def Instrument.calcBinomialNodeValue (o : Instrument α) (spot t time_val : α) : α :=
  if o.getCurrentExerciseValue spot t > time_val then o.getCurrentExerciseValue spot t
  else time_val

/-- The four `calcBlackScholesValue` overrides. -/
def Instrument.calcBlackScholesValue (o : Instrument α) (spot : α) : α :=
  let d1 := (1 / (sqrt o.T * o.Sigma)) *
    (((o.RiskFreeRate + o.Sigma * o.Sigma / 2) * o.T) + log (spot / o.Strike))
  let d2 := d1 - o.Sigma * sqrt o.T
  match o.variant with
  | Variant.EuropeanCall =>
      normalCDF d1 * spot - normalCDF d2 * o.Strike * exp (-o.RiskFreeRate * o.T)
  | Variant.EuropeanPut =>
      normalCDF (-d2) * o.Strike * exp (-o.RiskFreeRate * o.T) - normalCDF (-d1) * spot
  | Variant.AmericanCall =>
      normalCDF d1 * spot - normalCDF d2 * o.Strike * exp (-o.RiskFreeRate * o.T)
  | Variant.AmericanPut =>
      normalCDF (-d2) * o.Strike * exp (-o.RiskFreeRate * o.T) - normalCDF (-d1) * spot

/-- The first loop of `calcBinomialTreeValue`: one `push_back` for each `i` in
`0 .. treeDepth`. -/
def terminalLayer (o : Instrument α) (spot u : α) (treeDepth : Int) : List α :=
  (List.range (treeDepth + 1).toNat).foldl
    (fun vals (i : Nat) =>
      vals ++ [o.getCurrentExerciseValue
        (spot * exp ((((2 * (i : Int) - treeDepth : Int)) : α) * log u)) o.T])
    []

/-- Body of the inner loop of `calcBinomialTreeValue` for node `i` of layer `j`: reads
`vals[i+1]` and `vals[i]`, writes `vals[i]`. -/
def nodeStep (o : Instrument α) (spot u p dt t : α) (j : Nat) (vals : List α) (i : Nat) :
    Option (List α) := do
  let s := spot * exp ((((2 * (i : Int) - (j : Int) : Int)) : α) * log u)
  let up ← vals[i + 1]?
  let dn ← vals[i]?
  let v_time := exp (-o.RiskFreeRate * dt) * (p * up + (1 - p) * dn)
  let v := o.calcBinomialNodeValue s t v_time
  pure (vals.set i v)

/-- Body of the outer loop of `calcBinomialTreeValue` for layer `j`: steps `t` back by
`dt` and runs the inner loop over `i = 0 .. j`.  The state is `(t, vals)`. -/
def layerStep (o : Instrument α) (spot u p dt : α) (st : α × List α) (j : Nat) :
    Option (α × List α) := do
  let t := st.1 - dt
  let vals ← (List.range (j + 1)).foldlM (nodeStep o spot u p dt t j) st.2
  pure (t, vals)

/-- Method `Option::calcBinomialTreeValue`.  The outer loop visits
`j = treeDepth-1, ..., 0`. -/
def Instrument.calcBinomialTreeValue (o : Instrument α) (spot : α) (treeDepth : Int) :
    Option α := do
  let dt := o.T / (treeDepth : α)
  let u := exp (o.Sigma * sqrt dt)
  let d := 1 / u
  let p := (exp (o.RiskFreeRate * dt) - d) / (u - d)
  let vals := terminalLayer o spot u treeDepth
  let st ← (List.range treeDepth.toNat).reverse.foldlM (layerStep o spot u p dt) (o.T, vals)
  st.2[0]?

/-- Constructor `EuropeanCall::EuropeanCall`. -/
def EuropeanCall (strike sigma t riskFreeRate : α) (dp : Int) : Instrument α :=
  { variant := Variant.EuropeanCall, Strike := strike, Sigma := sigma, T := t,
    RiskFreeRate := riskFreeRate, dp := dp }

/-- Constructor `EuropeanPut::EuropeanPut`. -/
def EuropeanPut (strike sigma t riskFreeRate : α) (dp : Int) : Instrument α :=
  { variant := Variant.EuropeanPut, Strike := strike, Sigma := sigma, T := t,
    RiskFreeRate := riskFreeRate, dp := dp }

/-- Constructor `AmericanCall::AmericanCall`. -/
def AmericanCall (strike sigma t riskFreeRate : α) (dp : Int) : Instrument α :=
  { variant := Variant.AmericanCall, Strike := strike, Sigma := sigma, T := t,
    RiskFreeRate := riskFreeRate, dp := dp }

/-- Constructor `AmericanPut::AmericanPut`. -/
def AmericanPut (strike sigma t riskFreeRate : α) (dp : Int) : Instrument α :=
  { variant := Variant.AmericanPut, Strike := strike, Sigma := sigma, T := t,
    RiskFreeRate := riskFreeRate, dp := dp }

/-- The two `getValue` overrides (`EuropeanOption`, `AmericanOption`). -/
def Instrument.getValue (o : Instrument α) (spot : α) (dp : Int) : Option α :=
  match o.variant with
  | Variant.EuropeanCall => some (o.calcBlackScholesValue spot)
  | Variant.EuropeanPut => some (o.calcBlackScholesValue spot)
  | Variant.AmericanCall => o.calcBinomialTreeValue spot dp
  | Variant.AmericanPut => o.calcBinomialTreeValue spot dp

/-- Method `Option::getDelta`. -/
def Instrument.getDelta (o : Instrument α) (spot : α) (dp : Int) : Option α := do
  let bumped ← o.getValue (1.01 * spot) dp
  let base ← o.getValue spot dp
  pure (bumped - base)

/-- Method `Portfolio::addPosition`. -/
def Portfolio.addPosition (P : Portfolio α) (pos : Position α) : Portfolio α :=
  { Positions := P.Positions ++ [pos] }

/-- Method `Portfolio::getValue`: the loop over `Positions`, accumulator `value`. -/
def Portfolio.getValue (P : Portfolio α) (spot : α) : Option α :=
  P.Positions.foldlM
    (fun value pos => do
      let v ← pos.option.getValue spot 500
      pure (value + pos.weight * v))
    0

/-- Method `Portfolio::getDelta`: the loop over `Positions`, accumulator `delta`. -/
def Portfolio.getDelta (P : Portfolio α) (spot : α) : Option α :=
  P.Positions.foldlM
    (fun delta pos => do
      let v ← pos.option.getDelta spot 500
      pure (delta + pos.weight * v))
    0

/-- Conversion `int(x)` of a double: truncation toward zero. -/
def truncToInt (x : α) : Int :=
  if 0 ≤ x then ⌊x⌋ else ⌈x⌉

/-- Call `vals.at(k)` with an `int` index: a negative or too large index throws. -/
def vectorAt (vals : List α) (k : Int) : Option α :=
  if k < 0 then none else vals[k.toNat]?

/-- The scenario loop shared by `calcDailyVaR` and `calcDailyExpectedShortfall`
(`for i = 1 .. N`): each pass draws once and appends the portfolio value at the
simulated spot.  The state is `(vals, generator)`. -/
def simulate (P : Portfolio α) (spot drift vol : α) (N : Int) (g : Nat → α) :
    Option (List α × (Nat → α)) :=
  (List.range N.toNat).foldlM
    (fun st _ => do
      let draw := simStandardNormal st.2
      let spot_new := spot * exp (drift + vol * draw.1)
      let v ← P.getValue spot_new
      pure (st.1 ++ [v], draw.2))
    ([], g)

/-- Method `Portfolio::calcDailyVaR`; `std::sort` is an ascending sort. -/
def Portfolio.calcDailyVaR (P : Portfolio α) (spot sigma riskFreeRate : α) (N : Int)
    (g : Nat → α) : Option (α × (Nat → α)) := do
  let dt : α := 1.0 / 252.0
  let vol := sigma * sqrt dt
  let drift := dt * (riskFreeRate - 0.5 * vol * vol)
  let sim ← simulate P spot drift vol N g
  let vals := sim.1.insertionSort (fun a b => a ≤ b)
  let value ← P.getValue spot
  let worst ← vectorAt vals (truncToInt (0.05 * (N : α) - 1))
  pure (value - worst, sim.2)

/-- Method `Portfolio::calcDailyExpectedShortfall`. -/
def Portfolio.calcDailyExpectedShortfall (P : Portfolio α) (spot sigma riskFreeRate : α)
    (N : Int) (g : Nat → α) : Option (α × (Nat → α)) := do
  let dt : α := 1.0 / 252.0
  let vol := sigma * sqrt dt
  let drift := dt * (riskFreeRate - 0.5 * vol * vol)
  let sim ← simulate P spot drift vol N g
  let vals := sim.1.insertionSort (fun a b => a ≤ b)
  let value ← P.getValue spot
  let expected_shortfall ← (List.range (truncToInt (0.05 * (N : α))).toNat).foldlM
    (fun es (i : Nat) => do
      let x ← vectorAt vals (i : Int)
      pure (es - x / (0.05 * (N : α))))
    value
  pure (expected_shortfall, sim.2)

/-- The sample portfolio built by `main`: ten each of `ec1`, `ac1`, `ep1`, `ap1`. -/
def mainPortfolio : Portfolio α :=
  (((({ Positions := [] } : Portfolio α).addPosition
    { weight := 10, option := EuropeanCall 100 0.25 1 0.05 500 }).addPosition
    { weight := 10, option := AmericanCall 100 0.25 1 0.05 500 }).addPosition
    { weight := 10, option := EuropeanPut 100 0.25 1 0.05 500 }).addPosition
    { weight := 10, option := AmericanPut 100 0.25 1 0.05 500 }

/-- A portfolio short ten of the European put `ep1` of `main`. -/
def shortPuts : Portfolio α :=
  ({ Positions := [] } : Portfolio α).addPosition
    { weight := -10, option := EuropeanPut 100 0.25 1 0.05 500 }

/-! ### Names for local variables of the program, used to state the theorems -/

/-- The value the inner loop of `calcBinomialTreeValue` stores at node `i` of layer `j`,
from the two values `up` (`vals[i+1]`) and `dn` (`vals[i]`) of the layer after it. -/
def nodeValue (o : Instrument α) (spot u p dt t : α) (j i : Nat) (up dn : α) : α :=
  o.calcBinomialNodeValue (spot * exp ((((2 * (i : Int) - (j : Int) : Int)) : α) * log u)) t
    (exp (-o.RiskFreeRate * dt) * (p * up + (1 - p) * dn))

/-- The local `dt` of `calcBinomialTreeValue`. -/
def treeDt (o : Instrument α) (treeDepth : Int) : α :=
  o.T / (treeDepth : α)

/-- The local `u` of `calcBinomialTreeValue`. -/
def treeU (o : Instrument α) (treeDepth : Int) : α :=
  exp (o.Sigma * sqrt (treeDt o treeDepth))

/-- The local `p` of `calcBinomialTreeValue`. -/
def treeP (o : Instrument α) (treeDepth : Int) : α :=
  (exp (o.RiskFreeRate * treeDt o treeDepth) - 1 / treeU o treeDepth) /
    (treeU o treeDepth - 1 / treeU o treeDepth)

/-- The local `vol` of the two risk methods. -/
def dailyVol (sigma : α) : α :=
  sigma * sqrt (1.0 / 252.0)

/-- The local `drift` of the two risk methods. -/
def dailyDrift (sigma riskFreeRate : α) : α :=
  (1.0 / 252.0) * (riskFreeRate - 0.5 * dailyVol sigma * dailyVol sigma)

/-! ### The lattice as the specification words it -/

/-- The backward induction of the specification: `backwardInductionSpec o spot n k i` is
the value `V(n-k, i)` at node `i` of the layer `k` steps before expiry.  At expiry
`V(n,i) = exerciseValue(spot·u^(2i-n), T)`; before it
`V(j,i) = max(exerciseValue(spot·u^(2i-j), T - (n-j)·dt),
exp(-r·dt)·(p·V(j+1,i+1) + (1-p)·V(j+1,i)))`, with `dt = T/n`, `u = exp(σ·√dt)`,
`d = 1/u`, `p = (exp(r·dt) - d)/(u - d)`. -/
def backwardInductionSpec (o : Instrument α) (spot : α) (n : Int) : Nat → Nat → α
  | 0, i => o.getCurrentExerciseValue (spot * treeU o n ^ (2 * (i : Int) - n)) o.T
  | k + 1, i =>
      max
        (o.getCurrentExerciseValue
          (spot * treeU o n ^ (2 * (i : Int) - (n - ((k + 1 : Nat) : Int))))
          (o.T - ((k + 1 : Nat) : α) * treeDt o n))
        (exp (-o.RiskFreeRate * treeDt o n) *
          (treeP o n * backwardInductionSpec o spot n k (i + 1) +
            (1 - treeP o n) * backwardInductionSpec o spot n k i))

/-- The discounted binomial expectation of the payoff at expiry,
`exp(-r·T)·Σ_{i=0..n} C(n,i)·p^i·(1-p)^(n-i)·intrinsicValue(spot·u^(2i-n))`, with `u`, `p`
as in `backwardInductionSpec`. -/
def discountedBinomialSpec (o : Instrument α) (spot : α) (n : Nat) : α :=
  exp (-o.RiskFreeRate * o.T) *
    (Finset.range (n + 1)).sum (fun i =>
      (n.choose i : α) * treeP o n ^ i * (1 - treeP o n) ^ (n - i) *
        o.getIntrinsicValue (spot * treeU o n ^ (2 * (i : Int) - (n : Int))))

end Program

/-! ## The program over the real numbers -/

/-- The complementary error function `erfc x = (2/√π) ∫ t in (x, ∞), exp (-t²)`, which is
what `std::erfc` computes. -/
noncomputable def erfcReal (x : ℝ) : ℝ :=
  2 / Real.sqrt Real.pi * ∫ t in Set.Ioi x, Real.exp (-t ^ 2)

/-- The libm functions on `ℝ`. -/
noncomputable instance instMathFnsReal : MathFns ℝ where
  exp := Real.exp
  log := Real.log
  sqrt := Real.sqrt
  erfc := erfcReal

/-- The upper tail of the Gaussian integral, `∫ t in (x, ∞), exp (-t²)`. -/
noncomputable def gaussTail (x : ℝ) : ℝ :=
  ∫ t in Set.Ioi x, Real.exp (-t ^ 2)

/-- The local `d1` of `calcBlackScholesValue`, over the reals. -/
noncomputable def bsD1 (K σ T r S : ℝ) : ℝ :=
  (1 / (Real.sqrt T * σ)) * (((r + σ * σ / 2) * T) + Real.log (S / K))

/-! ## The lattice loops -/

section Lattice

variable {α : Type} [LinearOrderedField α] [MathFns α]

open MathFns

/-- Running a loop whose body keeps an invariant: the loop returns, and the invariant
holds of the final state. -/
theorem foldlM_invariant {σ ι : Type} (f : σ → ι → Option σ) (I : σ → Prop) (l : List ι)
    (hstep : ∀ s i, i ∈ l → I s → ∃ t, f s i = some t ∧ I t) (s : σ) (hs : I s) :
    ∃ t, l.foldlM f s = some t ∧ I t := by
  induction l generalizing s with
  | nil => exact ⟨s, rfl, hs⟩
  | cons i l ih =>
    obtain ⟨t, ht, hIt⟩ := hstep s i (List.mem_cons_self _ _) hs
    obtain ⟨r, hr, hIr⟩ := ih (fun s j hj => hstep s j (List.mem_cons_of_mem _ hj)) t hIt
    exact ⟨r, by simp [List.foldlM_cons, ht, hr], hIr⟩

/-- Two loops over the same index list whose bodies keep a relation between their
states: both return, in related states. -/
theorem foldlM_relation {σ τ ι : Type} (f : σ → ι → Option σ) (f' : τ → ι → Option τ)
    (R : σ → τ → Prop) (l : List ι)
    (hstep : ∀ s s' i, i ∈ l → R s s' → ∃ t t', f s i = some t ∧ f' s' i = some t' ∧ R t t')
    (s : σ) (s' : τ) (hs : R s s') :
    ∃ t t', l.foldlM f s = some t ∧ l.foldlM f' s' = some t' ∧ R t t' := by
  induction l generalizing s s' with
  | nil => exact ⟨s, s', rfl, rfl, hs⟩
  | cons i l ih =>
    obtain ⟨t, t', ht, ht', hR⟩ := hstep s s' i (List.mem_cons_self _ _) hs
    obtain ⟨r, r', hr, hr', hRr⟩ :=
      ih (fun s s' j hj => hstep s s' j (List.mem_cons_of_mem _ hj)) t t' hR
    exact ⟨r, r', by simp [List.foldlM_cons, ht, hr], by simp [List.foldlM_cons, ht', hr'], hRr⟩

/-- A loop of `push_back`s builds the list of the pushed values. -/
theorem foldl_push_eq_map {α ι : Type} (f : ι → α) (l : List ι) (init : List α) :
    l.foldl (fun vals i => vals ++ [f i]) init = init ++ l.map f := by
  induction l generalizing init with
  | nil => simp
  | cons i l ih => simp [ih]

theorem terminalLayer_eq_map (o : Instrument α) (spot u : α) (treeDepth : Int) :
    terminalLayer o spot u treeDepth =
      (List.range (treeDepth + 1).toNat).map (fun i : Nat =>
        o.getCurrentExerciseValue
          (spot * exp ((((2 * (i : Int) - treeDepth : Int)) : α) * log u)) o.T) := by
  unfold terminalLayer
  rw [foldl_push_eq_map]
  simp

theorem terminalLayer_length (o : Instrument α) (spot u : α) (treeDepth : Int) :
    (terminalLayer o spot u treeDepth).length = (treeDepth + 1).toNat := by
  rw [terminalLayer_eq_map, List.length_map, List.length_range]

theorem nodeStep_eq (o : Instrument α) (spot u p dt t : α) (j : Nat) (vals : List α) (i : Nat)
    (h : i + 1 < vals.length) :
    nodeStep o spot u p dt t j vals i =
      some (vals.set i (nodeValue o spot u p dt t j i (vals.getD (i + 1) 0) (vals.getD i 0))) := by
  have h1 : vals[i + 1]? = some (vals.getD (i + 1) 0) := by
    rw [List.getD_eq_getElem?_getD, List.getElem?_eq_getElem h]; rfl
  have h0 : vals[i]? = some (vals.getD i 0) := by
    rw [List.getD_eq_getElem?_getD, List.getElem?_eq_getElem (by omega)]; rfl
  unfold nodeStep nodeValue
  rw [h1, h0]
  rfl

/-- The inner loop run for its first `k` nodes: it returns, the buffer keeps its length,
the entries below `k` hold the new layer, computed from the old entries, and the
entries from `k` on are untouched. -/
theorem innerLoop_first (o : Instrument α) (spot u p dt t : α) (j : Nat) (vals : List α)
    (k : Nat) (hk : k < vals.length) :
    ∃ vals', (List.range k).foldlM (nodeStep o spot u p dt t j) vals = some vals' ∧
      vals'.length = vals.length ∧
      ∀ i, vals'.getD i 0 =
        if i < k then nodeValue o spot u p dt t j i (vals.getD (i + 1) 0) (vals.getD i 0)
        else vals.getD i 0 := by
  induction k with
  | zero => exact ⟨vals, rfl, rfl, fun i => by simp⟩
  | succ k ih =>
    obtain ⟨w, hw, hlen, hget⟩ := ih (by omega)
    refine ⟨w.set k (nodeValue o spot u p dt t j k (w.getD (k + 1) 0) (w.getD k 0)), ?_, ?_, ?_⟩
    · rw [List.range_succ, List.foldlM_append, hw]
      simp [nodeStep_eq o spot u p dt t j w k (by omega)]
    · simp [hlen]
    · intro i
      have hk1 := hget (k + 1)
      have hk0 := hget k
      rw [if_neg (by omega)] at hk1 hk0
      rw [hk1, hk0]
      by_cases hik : i = k
      · subst hik
        have hi : i < vals.length := by omega
        simp [List.getD_eq_getElem?_getD, List.getElem?_set, hlen, hi]
      · have : (w.set k (nodeValue o spot u p dt t j k (vals.getD (k + 1) 0) (vals.getD k 0))).getD i 0
            = w.getD i 0 := by
          simp [List.getD_eq_getElem?_getD, List.getElem?_set, Ne.symm hik]
        rw [this, hget i]
        by_cases hlt : i < k
        · simp [hlt, Nat.lt_succ_of_lt hlt]
        · have : ¬ i < k + 1 := by omega
          simp [hlt, this]

/-- One layer of the backward loop: it returns whenever the buffer has more than `j+1`
entries, steps `t` back by `dt`, keeps the buffer length, overwrites entries `0..j`
with the node values computed from the previous contents, and leaves the rest. -/
theorem layerStep_spec (o : Instrument α) (spot u p dt : α) (st : α × List α) (j : Nat)
    (hj : j + 1 < st.2.length) :
    ∃ vals', layerStep o spot u p dt st j = some (st.1 - dt, vals') ∧
      vals'.length = st.2.length ∧
      ∀ i, vals'.getD i 0 =
        if i ≤ j then
          nodeValue o spot u p dt (st.1 - dt) j i (st.2.getD (i + 1) 0) (st.2.getD i 0)
        else st.2.getD i 0 := by
  obtain ⟨w, hw, hlen, hget⟩ := innerLoop_first o spot u p dt (st.1 - dt) j st.2 (j + 1) hj
  refine ⟨w, ?_, hlen, ?_⟩
  · simp [layerStep, hw]
  · intro i
    rw [hget i]
    simp [Nat.lt_succ_iff]

theorem calcBinomialTreeValue_eq (o : Instrument α) (spot : α) (treeDepth : Int) :
    o.calcBinomialTreeValue spot treeDepth =
      ((List.range treeDepth.toNat).reverse.foldlM
        (layerStep o spot (treeU o treeDepth) (treeP o treeDepth) (treeDt o treeDepth))
        (o.T, terminalLayer o spot (treeU o treeDepth) treeDepth)).bind
        (fun st => st.2[0]?) := rfl

theorem reverse_range_succ (k : Nat) :
    (List.range (k + 1)).reverse = ((List.range k).map Nat.succ).reverse ++ [0] := by
  rw [List.range_succ_eq_map, List.reverse_cons]

theorem getD_zero_of_pos {β : Type} [LinearOrderedField β]
    (vals : List β) (h : 0 < vals.length) :
    vals[0]? = some (vals.getD 0 0) := by
  rw [List.getD_eq_getElem?_getD, List.getElem?_eq_getElem h]; rfl

/-- The backward loop over any list of layers `j < treeDepth` returns and keeps the
buffer at its `treeDepth + 1` entries. -/
theorem layers_length (o : Instrument α) (spot u p dt : α) (m : Nat) (l : List Nat)
    (hl : ∀ j ∈ l, j < m) (st : α × List α) (hst : st.2.length = m + 1) :
    ∃ st', l.foldlM (layerStep o spot u p dt) st = some st' ∧ st'.2.length = m + 1 := by
  refine foldlM_invariant _ (fun s => s.2.length = m + 1) l ?_ st hst
  intro s j hj hs
  obtain ⟨w, hw, hlen, -⟩ := layerStep_spec o spot u p dt s j (by have := hl j hj; omega)
  exact ⟨_, hw, by simpa [hlen] using hs⟩

/-- For a depth of at least one the lattice returns, and what it returns is the node
value stored by the last pass of the loop (`j = 0`, `i = 0`). -/
theorem calcBinomialTreeValue_last (o : Instrument α) (spot : α) (treeDepth : Int)
    (hn : 1 ≤ treeDepth) :
    ∃ t up dn, o.calcBinomialTreeValue spot treeDepth =
      some (nodeValue o spot (treeU o treeDepth) (treeP o treeDepth) (treeDt o treeDepth)
        t 0 0 up dn) := by
  obtain ⟨k, hk⟩ : ∃ k : Nat, treeDepth.toNat = k + 1 := ⟨treeDepth.toNat - 1, by omega⟩
  have hlen0 : (terminalLayer o spot (treeU o treeDepth) treeDepth).length = (k + 1) + 1 := by
    rw [terminalLayer_length]; omega
  rw [calcBinomialTreeValue_eq, hk, reverse_range_succ, List.foldlM_append]
  obtain ⟨st', hst', hlen'⟩ := layers_length o spot (treeU o treeDepth) (treeP o treeDepth)
    (treeDt o treeDepth) (k + 1) ((List.range k).map Nat.succ).reverse
    (by intro j hj; simp at hj; obtain ⟨a, ha, rfl⟩ := hj; omega)
    (o.T, terminalLayer o spot (treeU o treeDepth) treeDepth) hlen0
  obtain ⟨w, hw, hwlen, hget⟩ := layerStep_spec o spot (treeU o treeDepth) (treeP o treeDepth)
    (treeDt o treeDepth) st' 0 (by omega)
  refine ⟨st'.1 - treeDt o treeDepth, st'.2.getD 1 0, st'.2.getD 0 0, ?_⟩
  have h0 := hget 0
  simp only [le_refl, if_true] at h0
  rw [hst']
  simp only [Option.bind_eq_bind, Option.some_bind, List.foldlM_cons, List.foldlM_nil, hw]
  rw [← h0]
  exact getD_zero_of_pos w (by omega)

theorem calcBinomialNodeValue_eq_max {β : Type} [LinearOrderedField β]
    (o : Instrument β) (s t tv : β) :
    o.calcBinomialNodeValue s t tv = max (o.getCurrentExerciseValue s t) tv := by
  unfold Instrument.calcBinomialNodeValue
  split_ifs with h
  · exact (max_eq_left (le_of_lt h)).symm
  · exact (max_eq_right (not_lt.mp h)).symm

theorem getIntrinsicValue_nonneg {β : Type} [LinearOrderedField β]
    (o : Instrument β) (s : β) : 0 ≤ o.getIntrinsicValue s := by
  unfold Instrument.getIntrinsicValue
  cases o.variant <;> exact le_max_right _ _

theorem getCurrentExerciseValue_nonneg {β : Type} [LinearOrderedField β]
    (o : Instrument β) (s t : β) :
    0 ≤ o.getCurrentExerciseValue s t := by
  unfold Instrument.getCurrentExerciseValue
  cases o.variant <;> simp only <;> try split_ifs
  all_goals first | exact getIntrinsicValue_nonneg o s | exact le_refl _

theorem nodeValue_nonneg (o : Instrument α) (spot u p dt t : α) (j i : Nat) (up dn : α) :
    0 ≤ nodeValue o spot u p dt t j i up dn := by
  unfold nodeValue
  rw [calcBinomialNodeValue_eq_max]
  exact le_trans (getCurrentExerciseValue_nonneg o _ _) (le_max_left _ _)

/-- Node values are monotone in the two values they are computed from and in the
exercise value, when `0 ≤ p ≤ 1` and the discount factor is not negative. -/
theorem nodeValue_le (o : Instrument α) (a b u p dt t : α) (j i : Nat) (up dn up' dn' : α)
    (hp0 : 0 ≤ p) (hp1 : p ≤ 1) (hdisc : 0 ≤ exp (-o.RiskFreeRate * dt))
    (hex : ∀ (k : Int) (t : α), o.getCurrentExerciseValue (a * exp ((k : α) * log u)) t ≤
      o.getCurrentExerciseValue (b * exp ((k : α) * log u)) t)
    (hup : up ≤ up') (hdn : dn ≤ dn') :
    nodeValue o a u p dt t j i up dn ≤ nodeValue o b u p dt t j i up' dn' := by
  unfold nodeValue
  rw [calcBinomialNodeValue_eq_max, calcBinomialNodeValue_eq_max]
  apply max_le_max (hex _ _)
  apply mul_le_mul_of_nonneg_left _ hdisc
  have h1 : p * up ≤ p * up' := mul_le_mul_of_nonneg_left hup hp0
  have h2 : (1 - p) * dn ≤ (1 - p) * dn' := mul_le_mul_of_nonneg_left hdn (by linarith)
  linarith

/-- Two lattices on the same instrument and depth, started from spots `a` and `b` such
that every exercise value along the `a` lattice is at most the one at the same node
of the `b` lattice: with `0 ≤ p ≤ 1` the `a` value is at most the `b` value. -/
theorem calcBinomialTreeValue_le (o : Instrument α) (a b : α) (treeDepth : Int)
    (hn : 0 ≤ treeDepth)
    (hp0 : 0 ≤ treeP o treeDepth) (hp1 : treeP o treeDepth ≤ 1)
    (hdisc : 0 ≤ exp (-o.RiskFreeRate * treeDt o treeDepth))
    (hex : ∀ (k : Int) (t : α),
      o.getCurrentExerciseValue (a * exp ((k : α) * log (treeU o treeDepth))) t ≤
      o.getCurrentExerciseValue (b * exp ((k : α) * log (treeU o treeDepth))) t) :
    ∃ va vb, o.calcBinomialTreeValue a treeDepth = some va ∧
      o.calcBinomialTreeValue b treeDepth = some vb ∧ va ≤ vb := by
  set m := treeDepth.toNat with hm
  have hlen : ∀ s : α, (terminalLayer o s (treeU o treeDepth) treeDepth).length = m + 1 := by
    intro s; rw [terminalLayer_length]; omega
  have hterm : ∀ i, (terminalLayer o a (treeU o treeDepth) treeDepth).getD i 0 ≤
      (terminalLayer o b (treeU o treeDepth) treeDepth).getD i 0 := by
    intro i
    rw [terminalLayer_eq_map, terminalLayer_eq_map]
    by_cases hi : i < (treeDepth + 1).toNat
    · simp only [List.getD_eq_getElem?_getD, List.getElem?_map,
        List.getElem?_range hi, Option.map_some', Option.getD_some]
      exact hex _ _
    · have h1 : ∀ f : Nat → α, (List.map f (List.range (treeDepth + 1).toNat)).getD i 0 = 0 := by
        intro f
        rw [List.getD_eq_default]
        simp; omega
      rw [h1, h1]
  obtain ⟨sa, sb, hsa, hsb, hR⟩ := foldlM_relation
    (layerStep o a (treeU o treeDepth) (treeP o treeDepth) (treeDt o treeDepth))
    (layerStep o b (treeU o treeDepth) (treeP o treeDepth) (treeDt o treeDepth))
    (fun s s' => s.1 = s'.1 ∧ s.2.length = m + 1 ∧ s'.2.length = m + 1 ∧
      ∀ i, s.2.getD i 0 ≤ s'.2.getD i 0)
    (List.range m).reverse
    (by
      intro s s' j hj hR
      obtain ⟨ht, hl, hl', hle⟩ := hR
      have hjm : j < m := by simpa using hj
      obtain ⟨w, hw, hwl, hwg⟩ := layerStep_spec o a (treeU o treeDepth) (treeP o treeDepth)
        (treeDt o treeDepth) s j (by omega)
      obtain ⟨w', hw', hwl', hwg'⟩ := layerStep_spec o b (treeU o treeDepth) (treeP o treeDepth)
        (treeDt o treeDepth) s' j (by omega)
      refine ⟨_, _, hw, hw', by simp [ht], by show w.length = m + 1; omega,
        by show w'.length = m + 1; omega, ?_⟩
      intro i
      show w.getD i 0 ≤ w'.getD i 0
      rw [hwg i, hwg' i]
      split_ifs
      · rw [ht]
        exact nodeValue_le o a b _ _ _ _ j i _ _ _ _ hp0 hp1 hdisc hex (hle _) (hle _)
      · exact hle i)
    (o.T, terminalLayer o a (treeU o treeDepth) treeDepth)
    (o.T, terminalLayer o b (treeU o treeDepth) treeDepth)
    ⟨rfl, hlen a, hlen b, hterm⟩
  obtain ⟨-, hla, hlb, hle⟩ := hR
  refine ⟨sa.2.getD 0 0, sb.2.getD 0 0, ?_, ?_, hle 0⟩
  · rw [calcBinomialTreeValue_eq, hsa]
    exact getD_zero_of_pos _ (by omega)
  · rw [calcBinomialTreeValue_eq, hsb]
    exact getD_zero_of_pos _ (by omega)

theorem terminalLayer_one (o : Instrument α) (spot u : α) :
    terminalLayer o spot u 1 =
      [o.getCurrentExerciseValue (spot * exp (-1 * log u)) o.T,
       o.getCurrentExerciseValue (spot * exp (1 * log u)) o.T] := by
  rw [terminalLayer_eq_map]
  have h : ((1 : Int) + 1).toNat = 2 := rfl
  have hr : List.range 2 = [0, 1] := rfl
  rw [h, hr]
  simp only [List.map_cons, List.map_nil]
  norm_num

theorem terminalLayer_two (o : Instrument α) (spot u : α) :
    terminalLayer o spot u 2 =
      [o.getCurrentExerciseValue (spot * exp (-2 * log u)) o.T,
       o.getCurrentExerciseValue (spot * exp (0 * log u)) o.T,
       o.getCurrentExerciseValue (spot * exp (2 * log u)) o.T] := by
  rw [terminalLayer_eq_map]
  have h : ((2 : Int) + 1).toNat = 3 := rfl
  have hr : List.range 3 = [0, 1, 2] := rfl
  rw [h, hr]
  simp only [List.map_cons, List.map_nil]
  norm_num

/-- The lattice of depth one, unrolled. -/
theorem calcBinomialTreeValue_one (o : Instrument α) (spot : α) :
    o.calcBinomialTreeValue spot 1 =
      some (o.calcBinomialNodeValue (spot * exp (0 * log (treeU o 1))) (o.T - treeDt o 1)
        (exp (-o.RiskFreeRate * treeDt o 1) *
          (treeP o 1 * o.getCurrentExerciseValue (spot * exp (1 * log (treeU o 1))) o.T +
            (1 - treeP o 1) *
              o.getCurrentExerciseValue (spot * exp (-1 * log (treeU o 1))) o.T))) := by
  rw [calcBinomialTreeValue_eq, terminalLayer_one]
  have h : (1 : Int).toNat = 1 := rfl
  have hr : (List.range 1).reverse = [0] := rfl
  have hr1 : List.range (0 + 1) = [0] := rfl
  rw [h, hr]
  simp only [List.foldlM_cons, List.foldlM_nil, layerStep, hr1, nodeStep, Option.bind_eq_bind,
    Option.some_bind, Option.pure_def, List.getElem?_cons_succ, List.getElem?_cons_zero,
    List.set_cons_zero, zero_add]
  norm_num

/-- The lattice of depth two, unrolled. -/
theorem calcBinomialTreeValue_two (o : Instrument α) (spot : α) :
    o.calcBinomialTreeValue spot 2 =
      some (o.calcBinomialNodeValue (spot * exp (0 * log (treeU o 2)))
        (o.T - treeDt o 2 - treeDt o 2)
        (exp (-o.RiskFreeRate * treeDt o 2) *
          (treeP o 2 *
            o.calcBinomialNodeValue (spot * exp (1 * log (treeU o 2))) (o.T - treeDt o 2)
              (exp (-o.RiskFreeRate * treeDt o 2) *
                (treeP o 2 * o.getCurrentExerciseValue (spot * exp (2 * log (treeU o 2))) o.T +
                  (1 - treeP o 2) *
                    o.getCurrentExerciseValue (spot * exp (0 * log (treeU o 2))) o.T)) +
            (1 - treeP o 2) *
            o.calcBinomialNodeValue (spot * exp (-1 * log (treeU o 2))) (o.T - treeDt o 2)
              (exp (-o.RiskFreeRate * treeDt o 2) *
                (treeP o 2 * o.getCurrentExerciseValue (spot * exp (0 * log (treeU o 2))) o.T +
                  (1 - treeP o 2) *
                    o.getCurrentExerciseValue (spot * exp (-2 * log (treeU o 2))) o.T))))) := by
  rw [calcBinomialTreeValue_eq, terminalLayer_two]
  have h : (2 : Int).toNat = 2 := rfl
  have hr : (List.range 2).reverse = [1, 0] := rfl
  have hr1 : List.range (0 + 1) = [0] := rfl
  have hr2 : List.range (1 + 1) = [0, 1] := rfl
  rw [h, hr]
  simp only [List.foldlM_cons, List.foldlM_nil, layerStep, hr1, hr2, nodeStep,
    Option.bind_eq_bind, Option.some_bind, Option.pure_def, List.getElem?_cons_succ,
    List.getElem?_cons_zero, List.set_cons_zero, List.set_cons_succ, zero_add]
  norm_num

end Lattice

/-! ## The risk loops -/

section Risk

variable {α : Type} [LinearOrderedField α] [MathFns α]

open MathFns

/-- At a depth of at least one every instrument has a value. -/
theorem instrument_getValue_some {β : Type} [LinearOrderedField β] [MathFns β]
    (o : Instrument β) (spot : β) (dp : Int) (h : 1 ≤ dp) :
    ∃ v, o.getValue spot dp = some v := by
  unfold Instrument.getValue
  cases o.variant
  · exact ⟨_, rfl⟩
  · exact ⟨_, rfl⟩
  · obtain ⟨t, up, dn, h⟩ := calcBinomialTreeValue_last o spot dp h
    exact ⟨_, h⟩
  · obtain ⟨t, up, dn, h⟩ := calcBinomialTreeValue_last o spot dp h
    exact ⟨_, h⟩

/-- The portfolio value loop always returns. -/
theorem portfolio_getValue_some (P : Portfolio α) (spot : α) : ∃ v, P.getValue spot = some v := by
  obtain ⟨v, hv, -⟩ := foldlM_invariant
    (fun (value : α) (pos : Position α) => do
      let v ← pos.option.getValue spot 500
      pure (value + pos.weight * v))
    (fun _ => True) P.Positions
    (by
      intro s pos _ _
      obtain ⟨v, hv⟩ := instrument_getValue_some pos.option spot 500 (by norm_num)
      exact ⟨s + pos.weight * v, by simp [hv], trivial⟩)
    0 trivial
  exact ⟨v, hv⟩

/-- The scenario loop run for `k` passes: it returns the `k` portfolio values at the
spots simulated from the first `k` draws, in order, and the generator advanced by `k`. -/
theorem simulate_loop (P : Portfolio α) (spot drift vol : α) (g : Nat → α) (k : Nat) :
    ∃ vals : List α,
      (List.range k).foldlM
        (fun (st : List α × (Nat → α)) (_ : Nat) => do
          let draw := simStandardNormal st.2
          let spot_new := spot * exp (drift + vol * draw.1)
          let v ← P.getValue spot_new
          pure (st.1 ++ [v], draw.2))
        ([], g) = some (vals, fun i => g (i + k)) ∧
      vals.length = k ∧
      ∀ i, i < k → P.getValue (spot * exp (drift + vol * g i)) = vals[i]? := by
  induction k with
  | zero => exact ⟨[], rfl, rfl, fun i hi => absurd hi (Nat.not_lt_zero i)⟩
  | succ k ih =>
    obtain ⟨vals, hrun, hlen, hget⟩ := ih
    obtain ⟨v, hv⟩ := portfolio_getValue_some P (spot * exp (drift + vol * g k))
    refine ⟨vals ++ [v], ?_, by simp [hlen], ?_⟩
    · rw [List.range_succ, List.foldlM_append, hrun]
      have hg : (fun i => g (i + 1 + k)) = fun i => g (i + (k + 1)) := by
        funext i; congr 1; omega
      simp [simStandardNormal, hv, hg]
    · intro i hi
      by_cases hik : i < k
      · rw [hget i hik, List.getElem?_append_left (by omega)]
      · have hik' : i = k := by omega
        subst hik'
        rw [hv, List.getElem?_append_right (by omega)]
        simp [hlen]

theorem simulate_spec (P : Portfolio α) (spot drift vol : α) (N : Int) (g : Nat → α) :
    ∃ vals : List α,
      simulate P spot drift vol N g = some (vals, fun i => g (i + N.toNat)) ∧
      vals.length = N.toNat ∧
      ∀ i, i < N.toNat → P.getValue (spot * exp (drift + vol * g i)) = vals[i]? :=
  simulate_loop P spot drift vol g N.toNat

theorem truncToInt_of_nonneg {β : Type} [LinearOrderedField β] [FloorRing β]
    (x : β) (h : 0 ≤ x) : truncToInt x = ⌊x⌋ := by
  simp [truncToInt, h]

theorem truncToInt_of_neg {β : Type} [LinearOrderedField β] [FloorRing β]
    (x : β) (h : x < 0) : truncToInt x = ⌈x⌉ := by
  simp [truncToInt, not_le.mpr h]

theorem vectorAt_of_nonneg {β : Type}
    (vals : List β) (k : Int) (h : 0 ≤ k) :
    vectorAt vals k = vals[k.toNat]? := by
  simp [vectorAt, not_lt.mpr h]

theorem vectorAt_of_neg {β : Type}
    (vals : List β) (k : Int) (h : k < 0) : vectorAt vals k = none := by
  simp [vectorAt, h]

/-- What `calcDailyVaR` returns, given the outcome of the scenario loop and the current
portfolio value. -/
theorem calcDailyVaR_eq [FloorRing α]
    (P : Portfolio α) (spot sigma r : α) (N : Int) (g g' : Nat → α)
    (vals : List α) (V0 : α)
    (hsim : simulate P spot (dailyDrift sigma r) (dailyVol sigma) N g = some (vals, g'))
    (hV0 : P.getValue spot = some V0) :
    P.calcDailyVaR spot sigma r N g =
      (vectorAt (vals.insertionSort (fun a b => a ≤ b))
        (truncToInt (0.05 * (N : α) - 1))).map (fun w => (V0 - w, g')) := by
  unfold Portfolio.calcDailyVaR
  unfold dailyDrift dailyVol at hsim
  simp only [Option.bind_eq_bind, hsim, hV0, Option.some_bind]
  cases vectorAt (vals.insertionSort (fun a b => a ≤ b)) (truncToInt (0.05 * (N : α) - 1)) <;> rfl

/-- The tail loop of `calcDailyExpectedShortfall` run for `k` passes over a buffer with
at least `k` entries subtracts each of the first `k` entries divided by `c`. -/
theorem shortfall_loop {β : Type} [LinearOrderedField β]
    (sorted : List β) (c V0 : β) (k : Nat) (hk : k ≤ sorted.length) :
    (List.range k).foldlM
      (fun (es : β) (i : Nat) => do
        let x ← vectorAt sorted (i : Int)
        pure (es - x / c))
      V0 = some (V0 - (sorted.take k).sum / c) := by
  induction k with
  | zero => simp
  | succ k ih =>
    have hlt : k < sorted.length := by omega
    rw [List.range_succ, List.foldlM_append, ih (by omega)]
    have hx : vectorAt sorted (k : Int) = some sorted[k] := by
      rw [vectorAt_of_nonneg _ _ (by omega)]
      simp [hlt]
    have htake : sorted.take (k + 1) = sorted.take k ++ [sorted[k]] := by
      rw [List.take_succ, List.getElem?_eq_getElem hlt]; rfl
    simp only [Option.bind_eq_bind, Option.some_bind, List.foldlM_cons, List.foldlM_nil, hx,
      htake, List.sum_append, List.sum_cons, List.sum_nil, add_zero]
    simp only [pure, add_div, sub_sub]
    rfl

theorem truncToInt_toNat_le {β : Type} [LinearOrderedField β] [FloorRing β]
    (N : Int) : (truncToInt (0.05 * (N : β))).toNat ≤ N.toNat := by
  by_cases h : 0 ≤ N
  · have hN : (0 : β) ≤ (N : β) := by exact_mod_cast h
    have h0 : (0 : β) ≤ 0.05 * (N : β) := mul_nonneg (by norm_num) hN
    rw [truncToInt_of_nonneg _ h0]
    have : ⌊(0.05 : β) * (N : β)⌋ ≤ N := by
      rw [Int.floor_le_iff]
      have h1 : (0.05 : β) * (N : β) ≤ N := mul_le_of_le_one_left hN (by norm_num)
      linarith
    omega
  · have hN : (N : β) < 0 := by exact_mod_cast not_le.mp h
    have h0 : (0.05 : β) * (N : β) < 0 := mul_neg_of_pos_of_neg (by norm_num) hN
    rw [truncToInt_of_neg _ h0]
    have : ⌈(0.05 : β) * (N : β)⌉ ≤ 0 := by
      rw [Int.ceil_le]; exact_mod_cast h0.le
    omega

/-- What `calcDailyExpectedShortfall` returns, for every `N`: the current value less the
sum of the first `int(0.05·N)` sorted scenario values divided by `0.05·N`. -/
theorem calcDailyExpectedShortfall_eq [FloorRing α]
    (P : Portfolio α) (spot sigma r : α) (N : Int)
    (g g' : Nat → α) (vals : List α) (V0 : α)
    (hsim : simulate P spot (dailyDrift sigma r) (dailyVol sigma) N g = some (vals, g'))
    (hlen : vals.length = N.toNat)
    (hV0 : P.getValue spot = some V0) :
    P.calcDailyExpectedShortfall spot sigma r N g =
      some (V0 - ((vals.insertionSort (fun a b => a ≤ b)).take
        (truncToInt (0.05 * (N : α))).toNat).sum / (0.05 * (N : α)), g') := by
  unfold Portfolio.calcDailyExpectedShortfall
  unfold dailyDrift dailyVol at hsim
  have hk : (truncToInt (0.05 * (N : α))).toNat ≤
      (vals.insertionSort (fun a b => a ≤ b)).length := by
    rw [List.length_insertionSort, hlen]; exact truncToInt_toNat_le N
  have hloop := shortfall_loop (vals.insertionSort (fun a b => a ≤ b)) (0.05 * (N : α)) V0 _ hk
  simp only [Option.bind_eq_bind] at hloop
  simp only [Option.bind_eq_bind, hsim, hV0, Option.some_bind, hloop]
  rfl

end Risk

/-! ## The Gaussian tail and the closed form -/

section ClosedForm

open MeasureTheory Set

theorem erfcReal_eq (x : ℝ) : erfcReal x = 2 / Real.sqrt Real.pi * gaussTail x := rfl

theorem integrable_gauss : Integrable (fun t : ℝ => Real.exp (-t ^ 2)) := by
  have h := integrable_exp_neg_mul_sq (b := 1) one_pos
  simpa using h

theorem integral_gauss : ∫ t : ℝ, Real.exp (-t ^ 2) = Real.sqrt Real.pi := by
  have h := integral_gaussian 1
  simpa using h

theorem gaussTail_add_neg (x : ℝ) : gaussTail x + gaussTail (-x) = Real.sqrt Real.pi := by
  unfold gaussTail
  have h1 : ∫ t in Ioi (-x), Real.exp (-t ^ 2) = ∫ t in Iic x, Real.exp (-t ^ 2) := by
    rw [← integral_comp_neg_Iic x (fun t => Real.exp (-t ^ 2))]
    simp
  rw [h1, add_comm, intervalIntegral.integral_Iic_add_Ioi integrable_gauss.integrableOn
    integrable_gauss.integrableOn, integral_gauss]

theorem gaussTail_pos (x : ℝ) : 0 < gaussTail x := by
  unfold gaussTail
  rw [setIntegral_pos_iff_support_of_nonneg_ae
    (Filter.Eventually.of_forall fun t => (Real.exp_pos _).le) integrable_gauss.integrableOn]
  have hsupp : Function.support (fun t : ℝ => Real.exp (-t ^ 2)) = univ := by
    ext t; simp [Real.exp_ne_zero]
  rw [hsupp, univ_inter, Real.volume_Ioi]
  exact ENNReal.zero_lt_top

theorem gaussTail_sub_of_le {y x : ℝ} (h : y ≤ x) :
    gaussTail y - gaussTail x = ∫ t in Ioc y x, Real.exp (-t ^ 2) := by
  unfold gaussTail
  have hu : Ioi y = Ioc y x ∪ Ioi x := (Ioc_union_Ioi_eq_Ioi h).symm
  rw [hu, setIntegral_union (Ioc_disjoint_Ioi le_rfl) measurableSet_Ioi
    integrable_gauss.integrableOn integrable_gauss.integrableOn]
  ring

/-- Translating the domain of a Gaussian integral by `A ≥ 0` to the left multiplies it
by at least `exp (2AY - A²)` when the domain lies to the right of `Y`. -/
theorem gauss_shift_le (S : Set ℝ) (hS : MeasurableSet S) (Y A : ℝ) (hA : 0 ≤ A)
    (hSY : ∀ s ∈ S, Y ≤ s) :
    Real.exp (2 * A * Y - A ^ 2) * ∫ s in S, Real.exp (-s ^ 2) ≤
      ∫ t in {t | t + A ∈ S}, Real.exp (-t ^ 2) := by
  have hshift : ∫ t in {t | t + A ∈ S}, Real.exp (-t ^ 2) =
      ∫ s in S, Real.exp (-(s - A) ^ 2) := by
    have hS' : MeasurableSet {t : ℝ | t + A ∈ S} := hS.preimage (measurable_add_const A)
    rw [← integral_indicator hS', ← integral_indicator hS,
      ← integral_sub_right_eq_self (fun t => indicator {t | t + A ∈ S}
        (fun t => Real.exp (-t ^ 2)) t) A]
    congr 1
    ext s
    by_cases h : s ∈ S
    · have h' : s - A ∈ {t : ℝ | t + A ∈ S} := by simpa using h
      rw [indicator_of_mem h', indicator_of_mem h]
    · have h' : s - A ∉ {t : ℝ | t + A ∈ S} := by simpa using h
      rw [indicator_of_not_mem h', indicator_of_not_mem h]
  rw [hshift, ← integral_mul_left]
  apply setIntegral_mono_on (integrable_gauss.const_mul _).integrableOn
    (integrable_gauss.comp_sub_right A).integrableOn hS
  intro s hs
  have hYs := hSY s hs
  rw [← Real.exp_add]
  apply Real.exp_le_exp.mpr
  nlinarith [mul_le_mul_of_nonneg_left hYs hA]

theorem gaussTail_shift_le (Y A : ℝ) (hA : 0 ≤ A) :
    Real.exp (2 * A * Y - A ^ 2) * gaussTail Y ≤ gaussTail (Y - A) := by
  have h := gauss_shift_le (Ioi Y) measurableSet_Ioi Y A hA (fun s hs => le_of_lt hs)
  have hset : {t : ℝ | t + A ∈ Ioi Y} = Ioi (Y - A) := by
    ext t; simp [sub_lt_iff_lt_add]
  rw [hset] at h
  exact h

theorem gaussTail_diff_shift_le (Y X A : ℝ) (hA : 0 ≤ A) (hYX : Y ≤ X) :
    Real.exp (2 * A * Y - A ^ 2) * (gaussTail Y - gaussTail X) ≤
      gaussTail (Y - A) - gaussTail (X - A) := by
  have h := gauss_shift_le (Ioc Y X) measurableSet_Ioc Y A hA (fun s hs => le_of_lt hs.1)
  have hset : {t : ℝ | t + A ∈ Ioc Y X} = Ioc (Y - A) (X - A) := by
    ext t; simp [sub_lt_iff_lt_add, le_sub_iff_add_le]
  rw [hset, ← gaussTail_sub_of_le hYX, ← gaussTail_sub_of_le (by linarith)] at h
  exact h

@[simp] theorem exp_real (x : ℝ) : MathFns.exp x = Real.exp x := rfl
@[simp] theorem log_real (x : ℝ) : MathFns.log x = Real.log x := rfl
@[simp] theorem sqrt_real (x : ℝ) : MathFns.sqrt x = Real.sqrt x := rfl
@[simp] theorem erfc_real (x : ℝ) : MathFns.erfc x = erfcReal x := rfl

theorem normalCDF_eq (x : ℝ) :
    normalCDF x = gaussTail (-x / Real.sqrt 2) / Real.sqrt Real.pi := by
  have hpi : Real.sqrt Real.pi ≠ 0 := (Real.sqrt_pos.mpr Real.pi_pos).ne'
  simp only [normalCDF, erfc_real, sqrt_real, erfcReal_eq]
  field_simp
  ring

theorem normalCDF_add_neg (x : ℝ) : normalCDF x + normalCDF (-x) = 1 := by
  have hpi : Real.sqrt Real.pi ≠ 0 := (Real.sqrt_pos.mpr Real.pi_pos).ne'
  rw [normalCDF_eq, normalCDF_eq, ← add_div]
  have h := gaussTail_add_neg (-x / Real.sqrt 2)
  have e : - -x / Real.sqrt 2 = -(-x / Real.sqrt 2) := by ring
  rw [e, h, div_self hpi]

theorem normalCDF_pos (x : ℝ) : 0 < normalCDF x := by
  rw [normalCDF_eq]
  exact div_pos (gaussTail_pos _) (Real.sqrt_pos.mpr Real.pi_pos)

theorem sqrt_two_mul_self : Real.sqrt 2 * Real.sqrt 2 = 2 :=
  Real.mul_self_sqrt (by norm_num)

theorem normalCDF_shift_le (x a : ℝ) (ha : 0 ≤ a) :
    normalCDF x * Real.exp (-(a * x) - a ^ 2 / 2) ≤ normalCDF (x + a) := by
  have hpi : 0 < Real.sqrt Real.pi := Real.sqrt_pos.mpr Real.pi_pos
  have h2 : 0 < Real.sqrt 2 := Real.sqrt_pos.mpr (by norm_num)
  have h := gaussTail_shift_le (-x / Real.sqrt 2) (a / Real.sqrt 2) (div_nonneg ha h2.le)
  have e1 : 2 * (a / Real.sqrt 2) * (-x / Real.sqrt 2) - (a / Real.sqrt 2) ^ 2
      = -(a * x) - a ^ 2 / 2 := by
    field_simp
    nlinarith [sqrt_two_mul_self]
  have e2 : -x / Real.sqrt 2 - a / Real.sqrt 2 = -(x + a) / Real.sqrt 2 := by ring
  rw [e1, e2] at h
  rw [normalCDF_eq, normalCDF_eq, div_mul_eq_mul_div, div_le_div_iff_of_pos_right hpi]
  linarith

theorem normalCDF_diff_shift_le (x y a : ℝ) (ha : 0 ≤ a) (hxy : x ≤ y) :
    Real.exp (-(a * y) - a ^ 2 / 2) * (normalCDF y - normalCDF x) ≤
      normalCDF (y + a) - normalCDF (x + a) := by
  have hpi : 0 < Real.sqrt Real.pi := Real.sqrt_pos.mpr Real.pi_pos
  have h2 : 0 < Real.sqrt 2 := Real.sqrt_pos.mpr (by norm_num)
  have hYX : -y / Real.sqrt 2 ≤ -x / Real.sqrt 2 :=
    div_le_div_of_nonneg_right (by linarith) h2.le
  have h := gaussTail_diff_shift_le (-y / Real.sqrt 2) (-x / Real.sqrt 2) (a / Real.sqrt 2)
    (div_nonneg ha h2.le) hYX
  have e1 : 2 * (a / Real.sqrt 2) * (-y / Real.sqrt 2) - (a / Real.sqrt 2) ^ 2
      = -(a * y) - a ^ 2 / 2 := by
    field_simp
    nlinarith [sqrt_two_mul_self]
  have e2 : -y / Real.sqrt 2 - a / Real.sqrt 2 = -(y + a) / Real.sqrt 2 := by ring
  have e3 : -x / Real.sqrt 2 - a / Real.sqrt 2 = -(x + a) / Real.sqrt 2 := by ring
  rw [e1, e2, e3] at h
  rw [normalCDF_eq, normalCDF_eq, normalCDF_eq, normalCDF_eq, ← sub_div, ← sub_div,
    mul_div_assoc', div_le_div_iff_of_pos_right hpi]
  exact h

theorem normalCDF_shift_lt (x a : ℝ) (ha : 0 < a) :
    normalCDF x * Real.exp (-(a * x) - a ^ 2 / 2) < normalCDF (x + a) := by
  have h1 := normalCDF_diff_shift_le (x - 1) x a ha.le (by linarith)
  have h2 := normalCDF_shift_le (x - 1) a ha.le
  have h3 : Real.exp (-(a * x) - a ^ 2 / 2) < Real.exp (-(a * (x - 1)) - a ^ 2 / 2) :=
    Real.exp_lt_exp.mpr (by nlinarith)
  have h4 := mul_lt_mul_of_pos_left h3 (normalCDF_pos (x - 1))
  have e : x - 1 + a = x + a - 1 := by ring
  rw [e] at h1 h2
  nlinarith

theorem call_value_eq (v : Variant) (hv : v = Variant.EuropeanCall ∨ v = Variant.AmericanCall)
    (K σ T r S : ℝ) (dp : Int) :
    Instrument.calcBlackScholesValue
      { variant := v, Strike := K, Sigma := σ, T := T, RiskFreeRate := r, dp := dp } S =
      normalCDF (bsD1 K σ T r S) * S -
        normalCDF (bsD1 K σ T r S - σ * Real.sqrt T) * K * Real.exp (-r * T) := by
  rcases hv with rfl | rfl <;> rfl

theorem put_value_eq (v : Variant) (hv : v = Variant.EuropeanPut ∨ v = Variant.AmericanPut)
    (K σ T r S : ℝ) (dp : Int) :
    Instrument.calcBlackScholesValue
      { variant := v, Strike := K, Sigma := σ, T := T, RiskFreeRate := r, dp := dp } S =
      normalCDF (-(bsD1 K σ T r S - σ * Real.sqrt T)) * K * Real.exp (-r * T) -
        normalCDF (-(bsD1 K σ T r S)) * S := by
  rcases hv with rfl | rfl <;> rfl

/-- The spot in terms of `d1`: `S = K·exp(-rT)·exp(a·d1 - a²/2)` with `a = σ√T`. -/
theorem spot_eq_exp_d1 (K σ T r S : ℝ) (hS : 0 < S) (hK : 0 < K) (hσ : 0 < σ) (hT : 0 < T) :
    S = K * Real.exp (-r * T) *
      Real.exp (σ * Real.sqrt T * bsD1 K σ T r S - (σ * Real.sqrt T) ^ 2 / 2) := by
  have hsT : 0 < Real.sqrt T := Real.sqrt_pos.mpr hT
  have hsq : Real.sqrt T * Real.sqrt T = T := Real.mul_self_sqrt hT.le
  have h1 : σ * Real.sqrt T * bsD1 K σ T r S = (r + σ * σ / 2) * T + Real.log (S / K) := by
    unfold bsD1
    field_simp
    ring
  have h2 : (σ * Real.sqrt T) ^ 2 = σ * σ * T := by
    rw [mul_pow, Real.sq_sqrt hT.le]; ring
  rw [h1, h2, mul_assoc, ← Real.exp_add]
  have h3 : -r * T + ((r + σ * σ / 2) * T + Real.log (S / K) - σ * σ * T / 2)
      = Real.log (S / K) := by ring
  rw [h3, Real.exp_log (div_pos hS hK)]
  field_simp

theorem bsD1_le (K σ T r S S' : ℝ) (hS : 0 < S) (hK : 0 < K) (hσ : 0 < σ) (hT : 0 < T)
    (hSS : S ≤ S') : bsD1 K σ T r S ≤ bsD1 K σ T r S' := by
  unfold bsD1
  have hsT : 0 < Real.sqrt T := Real.sqrt_pos.mpr hT
  have hpos : 0 ≤ 1 / (Real.sqrt T * σ) := by positivity
  apply mul_le_mul_of_nonneg_left _ hpos
  have := Real.log_le_log (div_pos hS hK) (div_le_div_of_nonneg_right hSS hK.le)
  linarith

theorem call_value_nonneg (K σ T r S : ℝ) (hS : 0 < S) (hK : 0 < K) (hσ : 0 < σ) (hT : 0 < T) :
    0 ≤ normalCDF (bsD1 K σ T r S) * S -
        normalCDF (bsD1 K σ T r S - σ * Real.sqrt T) * K * Real.exp (-r * T) := by
  have ha : 0 < σ * Real.sqrt T := mul_pos hσ (Real.sqrt_pos.mpr hT)
  have hS' := spot_eq_exp_d1 K σ T r S hS hK hσ hT
  set a := σ * Real.sqrt T with haDef
  set d1 := bsD1 K σ T r S with hd1
  have h := normalCDF_shift_le (d1 - a) a ha.le
  rw [sub_add_cancel] at h
  have he : -(a * (d1 - a)) - a ^ 2 / 2 = -(a * d1 - a ^ 2 / 2) := by ring
  rw [he, Real.exp_neg] at h
  have hE : 0 < Real.exp (a * d1 - a ^ 2 / 2) := Real.exp_pos _
  have hK' : 0 < K * Real.exp (-r * T) := mul_pos hK (Real.exp_pos _)
  have h' : normalCDF (d1 - a) ≤ normalCDF d1 * Real.exp (a * d1 - a ^ 2 / 2) := by
    rwa [← div_eq_mul_inv, div_le_iff₀ hE] at h
  have h'' := mul_le_mul_of_nonneg_left h' hK'.le
  have key : normalCDF d1 * S =
      K * Real.exp (-r * T) * (normalCDF d1 * Real.exp (a * d1 - a ^ 2 / 2)) := by
    conv_lhs => rw [hS']
    ring
  linarith

theorem put_value_pos (K σ T r S : ℝ) (hS : 0 < S) (hK : 0 < K) (hσ : 0 < σ) (hT : 0 < T) :
    0 < normalCDF (-(bsD1 K σ T r S - σ * Real.sqrt T)) * K * Real.exp (-r * T) -
        normalCDF (-(bsD1 K σ T r S)) * S := by
  have ha : 0 < σ * Real.sqrt T := mul_pos hσ (Real.sqrt_pos.mpr hT)
  have hS' := spot_eq_exp_d1 K σ T r S hS hK hσ hT
  set a := σ * Real.sqrt T with haDef
  set d1 := bsD1 K σ T r S with hd1
  have h := normalCDF_shift_lt (-d1) a ha
  have he : -(a * -d1) - a ^ 2 / 2 = a * d1 - a ^ 2 / 2 := by ring
  have he' : -d1 + a = -(d1 - a) := by ring
  rw [he, he'] at h
  have hK' : 0 < K * Real.exp (-r * T) := mul_pos hK (Real.exp_pos _)
  have h'' := mul_lt_mul_of_pos_left h hK'
  have key : normalCDF (-d1) * S =
      K * Real.exp (-r * T) * (normalCDF (-d1) * Real.exp (a * d1 - a ^ 2 / 2)) := by
    conv_lhs => rw [hS']
    ring
  linarith

/-- The call formula is monotone in the spot. -/
theorem call_value_le (K σ T r S S' : ℝ) (hS : 0 < S) (hK : 0 < K) (hσ : 0 < σ) (hT : 0 < T)
    (hSS : S ≤ S') :
    normalCDF (bsD1 K σ T r S) * S -
        normalCDF (bsD1 K σ T r S - σ * Real.sqrt T) * K * Real.exp (-r * T) ≤
      normalCDF (bsD1 K σ T r S') * S' -
        normalCDF (bsD1 K σ T r S' - σ * Real.sqrt T) * K * Real.exp (-r * T) := by
  have ha : 0 < σ * Real.sqrt T := mul_pos hσ (Real.sqrt_pos.mpr hT)
  have hS'pos : 0 < S' := lt_of_lt_of_le hS hSS
  have hS2 := spot_eq_exp_d1 K σ T r S' hS'pos hK hσ hT
  have hd := bsD1_le K σ T r S S' hS hK hσ hT hSS
  set a := σ * Real.sqrt T with haDef
  set d1 := bsD1 K σ T r S with hd1
  set d1' := bsD1 K σ T r S' with hd1'
  have h := normalCDF_diff_shift_le (d1 - a) (d1' - a) a ha.le (by linarith)
  rw [sub_add_cancel, sub_add_cancel] at h
  have he : -(a * (d1' - a)) - a ^ 2 / 2 = -(a * d1' - a ^ 2 / 2) := by ring
  rw [he, Real.exp_neg] at h
  have hE : 0 < Real.exp (a * d1' - a ^ 2 / 2) := Real.exp_pos _
  have hK' : 0 < K * Real.exp (-r * T) := mul_pos hK (Real.exp_pos _)
  have h' : normalCDF (d1' - a) - normalCDF (d1 - a) ≤
      (normalCDF d1' - normalCDF d1) * Real.exp (a * d1' - a ^ 2 / 2) := by
    rw [← div_le_iff₀ hE, div_eq_inv_mul]; exact h
  have h'' := mul_le_mul_of_nonneg_left h' hK'.le
  have hΦ := mul_le_mul_of_nonneg_left hSS (normalCDF_pos d1).le
  have key : (normalCDF d1' - normalCDF d1) * S' =
      K * Real.exp (-r * T) *
        ((normalCDF d1' - normalCDF d1) * Real.exp (a * d1' - a ^ 2 / 2)) := by
    conv_lhs => rw [hS2]
    ring
  linarith

/-- The put formula is antitone in the spot. -/
theorem put_value_ge (K σ T r S S' : ℝ) (hS : 0 < S) (hK : 0 < K) (hσ : 0 < σ) (hT : 0 < T)
    (hSS : S ≤ S') :
    normalCDF (-(bsD1 K σ T r S' - σ * Real.sqrt T)) * K * Real.exp (-r * T) -
        normalCDF (-(bsD1 K σ T r S')) * S' ≤
      normalCDF (-(bsD1 K σ T r S - σ * Real.sqrt T)) * K * Real.exp (-r * T) -
        normalCDF (-(bsD1 K σ T r S)) * S := by
  have ha : 0 < σ * Real.sqrt T := mul_pos hσ (Real.sqrt_pos.mpr hT)
  have hS1 := spot_eq_exp_d1 K σ T r S hS hK hσ hT
  have hd := bsD1_le K σ T r S S' hS hK hσ hT hSS
  set a := σ * Real.sqrt T with haDef
  set d1 := bsD1 K σ T r S with hd1
  set d1' := bsD1 K σ T r S' with hd1'
  have h := normalCDF_diff_shift_le (-d1') (-d1) a ha.le (by linarith)
  have he : -(a * -d1) - a ^ 2 / 2 = a * d1 - a ^ 2 / 2 := by ring
  have e1 : -d1 + a = -(d1 - a) := by ring
  have e2 : -d1' + a = -(d1' - a) := by ring
  rw [he, e1, e2] at h
  have hK' : 0 < K * Real.exp (-r * T) := mul_pos hK (Real.exp_pos _)
  have h'' := mul_le_mul_of_nonneg_left h hK'.le
  have hΦ := mul_le_mul_of_nonneg_left hSS (normalCDF_pos (-d1')).le
  have key : (normalCDF (-d1) - normalCDF (-d1')) * S =
      K * Real.exp (-r * T) *
        (Real.exp (a * d1 - a ^ 2 / 2) * (normalCDF (-d1) - normalCDF (-d1'))) := by
    conv_lhs => rw [hS1]
    ring
  linarith

end ClosedForm

/-! ## The claims -/

section BackwardInduction

/-- The spot factor of the code, `exp(k·log u)`, is the power `u^k` of the
specification. -/
theorem exp_mul_log_treeU (o : Instrument ℝ) (n k : Int) :
    MathFns.exp ((k : ℝ) * MathFns.log (treeU o n)) = treeU o n ^ k := by
  unfold treeU
  rw [exp_real, log_real, exp_real, Real.log_exp, mul_comm, Real.exp_mul, Real.rpow_intCast]

theorem reverse_range_succ_cons (m : Nat) :
    (List.range (m + 1)).reverse = m :: (List.range m).reverse := by
  rw [List.range_succ, List.reverse_append]
  rfl

/-- The backward loop started on the layer `m` of the specification (the first `m + 1`
entries of the buffer hold `V(m, ·)`) ends with `V(0,0)` in entry `0`. -/
theorem backward_loop_spec (o : Instrument ℝ) (spot : ℝ) (n : Int) (m : Nat)
    (hm : m ≤ n.toNat) (hn : 0 ≤ n) (st : ℝ × List ℝ)
    (ht : st.1 = o.T - ((n.toNat - m : Nat) : ℝ) * treeDt o n)
    (hlen : st.2.length = n.toNat + 1)
    (hval : ∀ i, i ≤ m → st.2.getD i 0 = backwardInductionSpec o spot n (n.toNat - m) i) :
    ∃ st', (List.range m).reverse.foldlM
        (layerStep o spot (treeU o n) (treeP o n) (treeDt o n)) st = some st' ∧
      st'.2.length = n.toNat + 1 ∧
      st'.2.getD 0 0 = backwardInductionSpec o spot n n.toNat 0 := by
  induction m generalizing st with
  | zero =>
    refine ⟨st, rfl, hlen, ?_⟩
    have := hval 0 (le_refl _)
    simpa using this
  | succ m ih =>
    obtain ⟨w, hw, hwlen, hwget⟩ := layerStep_spec o spot (treeU o n) (treeP o n)
      (treeDt o n) st m (by omega)
    obtain ⟨k, hk⟩ : ∃ k, n.toNat - (m + 1) = k := ⟨_, rfl⟩
    have hk1 : n.toNat - m = k + 1 := by omega
    rw [reverse_range_succ_cons, List.foldlM_cons, hw]
    apply ih (by omega) (st.1 - treeDt o n, w)
    · show st.1 - treeDt o n = _
      rw [ht, hk, hk1]
      push_cast
      ring
    · show w.length = _
      omega
    · intro i hi
      show w.getD i 0 = _
      rw [hwget i, if_pos hi, hval (i + 1) (by omega), hval i (by omega), hk, hk1]
      unfold nodeValue
      rw [calcBinomialNodeValue_eq_max, exp_mul_log_treeU, ht, hk]
      have hexp : (2 * (i : Int) - (m : Int)) = 2 * (i : Int) - (n - ((k + 1 : Nat) : Int)) := by
        omega
      have htime : o.T - (k : ℝ) * treeDt o n - treeDt o n =
          o.T - ((k + 1 : Nat) : ℝ) * treeDt o n := by
        push_cast; ring
      rw [hexp, htime]
      rfl

/-- The lattice computes the backward induction of the specification. -/
theorem calcBinomialTreeValue_eq_spec (o : Instrument ℝ) (spot : ℝ) (n : Int) (hn : 0 ≤ n) :
    o.calcBinomialTreeValue spot n = some (backwardInductionSpec o spot n n.toNat 0) := by
  have hlen : (terminalLayer o spot (treeU o n) n).length = n.toNat + 1 := by
    rw [terminalLayer_length]; omega
  obtain ⟨st', hst', hlen', hget⟩ := backward_loop_spec o spot n n.toNat (le_refl _) hn
    (o.T, terminalLayer o spot (treeU o n) n)
    (by simp) hlen
    (by
      intro i hi
      rw [terminalLayer_eq_map]
      have hi' : i < (n + 1).toNat := by omega
      simp only [List.getD_eq_getElem?_getD, List.getElem?_map, List.getElem?_range hi',
        Option.map_some', Option.getD_some, Nat.sub_self]
      rw [exp_mul_log_treeU]
      rfl)
  rw [calcBinomialTreeValue_eq, hst']
  show st'.2[0]? = _
  rw [getD_zero_of_pos _ (by omega), hget]

/-- Pascal's rule for binomially weighted sums of a sequence: one step of the
two-point average `a·(shifted) + b·(unshifted)`. -/
theorem binomial_sum_step (a b : ℝ) (f : Nat → ℝ) (k i : Nat) :
    (Finset.range (k + 2)).sum (fun m =>
        ((k + 1).choose m : ℝ) * a ^ m * b ^ (k + 1 - m) * f (i + m)) =
      a * (Finset.range (k + 1)).sum (fun m =>
        (k.choose m : ℝ) * a ^ m * b ^ (k - m) * f (i + 1 + m)) +
      b * (Finset.range (k + 1)).sum (fun m =>
        (k.choose m : ℝ) * a ^ m * b ^ (k - m) * f (i + m)) := by
  rw [Finset.sum_range_succ' _ (k + 1)]
  have h1 : (Finset.range (k + 1)).sum (fun m =>
      ((k + 1).choose (m + 1) : ℝ) * a ^ (m + 1) * b ^ (k + 1 - (m + 1)) * f (i + (m + 1))) =
      a * (Finset.range (k + 1)).sum (fun m =>
        (k.choose m : ℝ) * a ^ m * b ^ (k - m) * f (i + 1 + m)) +
      (Finset.range (k + 1)).sum (fun m =>
        (k.choose (m + 1) : ℝ) * a ^ (m + 1) * b ^ (k - m) * f (i + (m + 1))) := by
    rw [Finset.mul_sum, ← Finset.sum_add_distrib]
    apply Finset.sum_congr rfl
    intro m _
    rw [Nat.choose_succ_succ, Nat.succ_sub_succ, show i + 1 + m = i + (m + 1) by omega]
    push_cast
    ring
  have h2 : b * (Finset.range (k + 1)).sum (fun m =>
        (k.choose m : ℝ) * a ^ m * b ^ (k - m) * f (i + m)) =
      (Finset.range (k + 1)).sum (fun m =>
        (k.choose (m + 1) : ℝ) * a ^ (m + 1) * b ^ (k - m) * f (i + (m + 1))) +
      ((k + 1).choose 0 : ℝ) * a ^ 0 * b ^ (k + 1 - 0) * f (i + 0) := by
    rw [Finset.sum_range_succ' _ k, Finset.sum_range_succ _ k, Nat.choose_succ_self,
      mul_add, Finset.mul_sum]
    congr 1
    · simp only [Nat.cast_zero, zero_mul, add_zero]
      apply Finset.sum_congr rfl
      intro m hm
      have hmk : m < k := Finset.mem_range.mp hm
      have : k - m = (k - (m + 1)) + 1 := by omega
      rw [this, pow_succ]
      ring
    · simp only [Nat.choose_zero_right, Nat.cast_one, pow_zero, Nat.sub_zero, add_zero, pow_succ]
      ring
  rw [h1, h2]
  ring

theorem european_exercise (o : Instrument ℝ)
    (ho : o.variant = Variant.EuropeanCall ∨ o.variant = Variant.EuropeanPut) (s t : ℝ) :
    o.getCurrentExerciseValue s t = if t = o.T then o.getIntrinsicValue s else 0 := by
  unfold Instrument.getCurrentExerciseValue
  rcases ho with ho | ho <;> rw [ho]

/-- For a European instrument and `0 ≤ p ≤ 1` the backward induction of the
specification is, `k` steps before expiry, the `k`-step discounted binomial
expectation of the intrinsic values at expiry. -/
theorem european_spec_eq_binomial (o : Instrument ℝ)
    (ho : o.variant = Variant.EuropeanCall ∨ o.variant = Variant.EuropeanPut)
    (spot : ℝ) (n : Int) (hdt : 0 < treeDt o n)
    (hp0 : 0 ≤ treeP o n) (hp1 : treeP o n ≤ 1) (k i : Nat) :
    backwardInductionSpec o spot n k i =
      Real.exp (-o.RiskFreeRate * treeDt o n) ^ k *
        (Finset.range (k + 1)).sum (fun m =>
          (k.choose m : ℝ) * treeP o n ^ m * (1 - treeP o n) ^ (k - m) *
            o.getIntrinsicValue (spot * treeU o n ^ (2 * ((i + m : Nat) : Int) - n))) := by
  induction k generalizing i with
  | zero =>
    simp [backwardInductionSpec, european_exercise o ho]
  | succ k ih =>
    have hnon : ∀ j, 0 ≤ backwardInductionSpec o spot n k j := by
      intro j
      rw [ih j]
      apply mul_nonneg (pow_nonneg (Real.exp_pos _).le _)
      apply Finset.sum_nonneg
      intro m _
      exact mul_nonneg (mul_nonneg (mul_nonneg (Nat.cast_nonneg _) (pow_nonneg hp0 _))
        (pow_nonneg (by linarith) _)) (getIntrinsicValue_nonneg _ _)
    have htime : o.T - ((k + 1 : Nat) : ℝ) * treeDt o n ≠ o.T := by
      have : 0 < ((k + 1 : Nat) : ℝ) * treeDt o n :=
        mul_pos (by exact_mod_cast Nat.succ_pos k) hdt
      intro h; linarith
    have hcont : 0 ≤ MathFns.exp (-o.RiskFreeRate * treeDt o n) *
        (treeP o n * backwardInductionSpec o spot n k (i + 1) +
          (1 - treeP o n) * backwardInductionSpec o spot n k i) := by
      apply mul_nonneg (Real.exp_pos _).le
      exact add_nonneg (mul_nonneg hp0 (hnon _)) (mul_nonneg (by linarith) (hnon _))
    have hstep : backwardInductionSpec o spot n (k + 1) i =
        MathFns.exp (-o.RiskFreeRate * treeDt o n) *
          (treeP o n * backwardInductionSpec o spot n k (i + 1) +
            (1 - treeP o n) * backwardInductionSpec o spot n k i) := by
      show max _ _ = _
      rw [european_exercise o ho, if_neg htime]
      exact max_eq_right hcont
    rw [hstep, ih (i + 1), ih i, exp_real]
    have hP := binomial_sum_step (treeP o n) (1 - treeP o n)
      (fun j => o.getIntrinsicValue (spot * treeU o n ^ (2 * ((j : Nat) : Int) - n))) k i
    simp only at hP
    rw [hP, pow_succ]
    ring

/-- The `n`-step discount factor is the discount factor to expiry. -/
theorem discount_pow (o : Instrument ℝ) (n : Nat) (hn : 1 ≤ n) :
    Real.exp (-o.RiskFreeRate * treeDt o (n : Int)) ^ n = Real.exp (-o.RiskFreeRate * o.T) := by
  rw [← Real.exp_nat_mul]
  congr 1
  unfold treeDt
  have : (n : ℝ) ≠ 0 := by exact_mod_cast (by omega : n ≠ 0)
  push_cast
  field_simp
  ring

/-- A European lattice with `0 ≤ p ≤ 1` returns the discounted binomial expectation. -/
theorem european_lattice_binomial (o : Instrument ℝ)
    (ho : o.variant = Variant.EuropeanCall ∨ o.variant = Variant.EuropeanPut)
    (spot : ℝ) (n : Nat) (hn : 1 ≤ n) (hT : 0 < o.T)
    (hp0 : 0 ≤ treeP o (n : Int)) (hp1 : treeP o (n : Int) ≤ 1) :
    o.calcBinomialTreeValue spot (n : Int) = some (discountedBinomialSpec o spot n) := by
  have hdt : 0 < treeDt o (n : Int) := by
    unfold treeDt
    apply div_pos hT
    exact_mod_cast (by omega : 0 < n)
  rw [calcBinomialTreeValue_eq_spec o spot n (by omega), Int.toNat_ofNat,
    european_spec_eq_binomial o ho spot n hdt hp0 hp1, discount_pow o n hn]
  unfold discountedBinomialSpec
  simp only [zero_add, exp_real]

end BackwardInduction

section PortfolioSums

variable {α : Type} [LinearOrderedField α] [MathFns α]

/-- The value loop over any list of positions, from any start value: the start value
plus the sum of `weight · value` over the list. -/
theorem value_loop_eq_sum (l : List (Position α)) (spot init : α) :
    l.foldlM
      (fun (value : α) (pos : Position α) => do
        let v ← pos.option.getValue spot 500
        pure (value + pos.weight * v))
      init =
    some (init + (l.map (fun pos =>
      pos.weight * (pos.option.getValue spot 500).getD 0)).sum) := by
  induction l generalizing init with
  | nil => simp
  | cons pos l ih =>
    obtain ⟨v, hv⟩ := instrument_getValue_some pos.option spot 500 (by norm_num)
    rw [List.foldlM_cons]
    simp only [hv, Option.bind_eq_bind, Option.some_bind, Option.pure_def, List.map_cons,
      List.sum_cons, Option.getD_some] at ih ⊢
    rw [ih]
    congr 1
    ring

/-- At a depth of at least one `getDelta` of an instrument returns the difference of
its two values. -/
theorem instrument_getDelta_eq (o : Instrument α) (spot : α) (dp : Int) (h : 1 ≤ dp) :
    o.getDelta spot dp =
      some ((o.getValue (1.01 * spot) dp).getD 0 - (o.getValue spot dp).getD 0) := by
  obtain ⟨a, ha⟩ := instrument_getValue_some o (1.01 * spot) dp h
  obtain ⟨b, hb⟩ := instrument_getValue_some o spot dp h
  simp [Instrument.getDelta, ha, hb]

/-- The delta loop over any list of positions, from any start value. -/
theorem delta_loop_eq_sum (l : List (Position α)) (spot init : α) :
    l.foldlM
      (fun (delta : α) (pos : Position α) => do
        let v ← pos.option.getDelta spot 500
        pure (delta + pos.weight * v))
      init =
    some (init + (l.map (fun pos =>
      pos.weight * ((pos.option.getValue (1.01 * spot) 500).getD 0 -
        (pos.option.getValue spot 500).getD 0))).sum) := by
  induction l generalizing init with
  | nil => simp
  | cons pos l ih =>
    rw [List.foldlM_cons]
    simp only [instrument_getDelta_eq pos.option spot 500 (by norm_num), Option.bind_eq_bind,
      Option.some_bind, Option.pure_def, List.map_cons, List.sum_cons] at ih ⊢
    rw [ih]
    congr 1
    ring

/-- A weighted sum of differences is the difference of the weighted sums. -/
theorem sum_map_weighted_sub {β : Type} [LinearOrderedField β] (l : List (Position β))
    (f g : Position β → β) :
    (l.map (fun pos => pos.weight * (f pos - g pos))).sum =
      (l.map (fun pos => pos.weight * f pos)).sum -
        (l.map (fun pos => pos.weight * g pos)).sum := by
  induction l with
  | nil => simp
  | cons pos l ih =>
    simp only [List.map_cons, List.sum_cons, ih]
    ring

end PortfolioSums

section TwoInstruments

variable {α : Type} [LinearOrderedField α] [MathFns α]

open MathFns

/-- Node values of two instruments with the same rate at the same node: the one with
the larger exercise value and the larger successors is larger, when `0 ≤ p ≤ 1`. -/
theorem nodeValue_le_instruments (o o' : Instrument α) (spot u p dt t : α) (j i : Nat)
    (up dn up' dn' : α) (hr : o'.RiskFreeRate = o.RiskFreeRate)
    (hp0 : 0 ≤ p) (hp1 : p ≤ 1) (hdisc : 0 ≤ exp (-o.RiskFreeRate * dt))
    (hex : ∀ s t : α, o.getCurrentExerciseValue s t ≤ o'.getCurrentExerciseValue s t)
    (hup : up ≤ up') (hdn : dn ≤ dn') :
    nodeValue o spot u p dt t j i up dn ≤ nodeValue o' spot u p dt t j i up' dn' := by
  unfold nodeValue
  rw [calcBinomialNodeValue_eq_max, calcBinomialNodeValue_eq_max, hr]
  apply max_le_max (hex _ _)
  apply mul_le_mul_of_nonneg_left _ hdisc
  have h1 : p * up ≤ p * up' := mul_le_mul_of_nonneg_left hup hp0
  have h2 : (1 - p) * dn ≤ (1 - p) * dn' := mul_le_mul_of_nonneg_left hdn (by linarith)
  linarith

/-- Two instruments with the same expiry, volatility and rate, the second with the
larger exercise value everywhere: with `0 ≤ p ≤ 1` the lattice value of the first is
at most the lattice value of the second, at the same spot and depth. -/
theorem calcBinomialTreeValue_le_instruments (o o' : Instrument α) (spot : α) (n : Int)
    (hn : 0 ≤ n) (hT : o'.T = o.T) (hs : o'.Sigma = o.Sigma)
    (hr : o'.RiskFreeRate = o.RiskFreeRate)
    (hp0 : 0 ≤ treeP o n) (hp1 : treeP o n ≤ 1)
    (hdisc : 0 ≤ exp (-o.RiskFreeRate * treeDt o n))
    (hex : ∀ s t : α, o.getCurrentExerciseValue s t ≤ o'.getCurrentExerciseValue s t) :
    ∃ v v', o.calcBinomialTreeValue spot n = some v ∧
      o'.calcBinomialTreeValue spot n = some v' ∧ v ≤ v' := by
  have hdt : treeDt o' n = treeDt o n := by unfold treeDt; rw [hT]
  have hu : treeU o' n = treeU o n := by unfold treeU; rw [hdt, hs]
  have hP : treeP o' n = treeP o n := by unfold treeP; rw [hdt, hu, hr]
  set m := n.toNat with hm
  have hlen : ∀ q : Instrument α, (terminalLayer q spot (treeU o n) n).length = m + 1 := by
    intro q; rw [terminalLayer_length]; omega
  have hterm : ∀ i, (terminalLayer o spot (treeU o n) n).getD i 0 ≤
      (terminalLayer o' spot (treeU o n) n).getD i 0 := by
    intro i
    rw [terminalLayer_eq_map, terminalLayer_eq_map]
    by_cases hi : i < (n + 1).toNat
    · simp only [List.getD_eq_getElem?_getD, List.getElem?_map,
        List.getElem?_range hi, Option.map_some', Option.getD_some]
      rw [hT]
      exact hex _ _
    · have h1 : ∀ f : Nat → α, (List.map f (List.range (n + 1).toNat)).getD i 0 = 0 := by
        intro f
        rw [List.getD_eq_default]
        simp; omega
      rw [h1, h1]
  obtain ⟨sa, sb, hsa, hsb, hR⟩ := foldlM_relation
    (layerStep o spot (treeU o n) (treeP o n) (treeDt o n))
    (layerStep o' spot (treeU o n) (treeP o n) (treeDt o n))
    (fun s s' => s.1 = s'.1 ∧ s.2.length = m + 1 ∧ s'.2.length = m + 1 ∧
      ∀ i, s.2.getD i 0 ≤ s'.2.getD i 0)
    (List.range m).reverse
    (by
      intro s s' j hj hR
      obtain ⟨ht, hl, hl', hle⟩ := hR
      have hjm : j < m := by simpa using hj
      obtain ⟨w, hw, hwl, hwg⟩ := layerStep_spec o spot (treeU o n) (treeP o n)
        (treeDt o n) s j (by omega)
      obtain ⟨w', hw', hwl', hwg'⟩ := layerStep_spec o' spot (treeU o n) (treeP o n)
        (treeDt o n) s' j (by omega)
      refine ⟨_, _, hw, hw', by simp [ht], by show w.length = m + 1; omega,
        by show w'.length = m + 1; omega, ?_⟩
      intro i
      show w.getD i 0 ≤ w'.getD i 0
      rw [hwg i, hwg' i]
      split_ifs
      · rw [ht]
        exact nodeValue_le_instruments o o' _ _ _ _ _ j i _ _ _ _ hr hp0 hp1 hdisc hex
          (hle _) (hle _)
      · exact hle i)
    (o.T, terminalLayer o spot (treeU o n) n)
    (o'.T, terminalLayer o' spot (treeU o n) n)
    ⟨hT.symm, hlen o, hlen o', hterm⟩
  obtain ⟨-, hla, hlb, hle⟩ := hR
  refine ⟨sa.2.getD 0 0, sb.2.getD 0 0, ?_, ?_, hle 0⟩
  · rw [calcBinomialTreeValue_eq, hsa]
    exact getD_zero_of_pos _ (by omega)
  · rw [calcBinomialTreeValue_eq, hu, hP, hdt, hsb]
    exact getD_zero_of_pos _ (by omega)

end TwoInstruments

section Claims

/-- Claim C1 (put-call parity).  For spot `S > 0`, strike `K > 0`, volatility `σ > 0`, expiry
`T > 0` and any rate `r`, the closed-form value of the European call minus that of the
European put with the same parameters is exactly `S - K·exp(-r·T)`. -/
theorem put_call_parity (S K σ T r : ℝ) (dp dp' : Int)
    (hS : 0 < S) (hK : 0 < K) (hσ : 0 < σ) (hT : 0 < T) :
    (EuropeanCall K σ T r dp).calcBlackScholesValue S -
        (EuropeanPut K σ T r dp').calcBlackScholesValue S =
      S - K * Real.exp (-r * T) := by
  have _ := hS; have _ := hK; have _ := hσ; have _ := hT
  unfold EuropeanCall EuropeanPut
  rw [call_value_eq _ (Or.inl rfl), put_value_eq _ (Or.inl rfl)]
  have h1 := normalCDF_add_neg (bsD1 K σ T r S)
  have h2 := normalCDF_add_neg (bsD1 K σ T r S - σ * Real.sqrt T)
  have e1 : normalCDF (bsD1 K σ T r S) = 1 - normalCDF (-(bsD1 K σ T r S)) := by linarith
  have e2 : normalCDF (bsD1 K σ T r S - σ * Real.sqrt T) =
      1 - normalCDF (-(bsD1 K σ T r S - σ * Real.sqrt T)) := by linarith
  rw [e1, e2]
  ring

/-- Claim C1 at the test instrument of `main`: spot 50, strike 50, sigma 0.2, expiry 0.5, rate 0.1. -/
theorem put_call_parity_witness :
    (0 : ℝ) < 50 ∧ (0 : ℝ) < 50 ∧ (0 : ℝ) < 0.2 ∧ (0 : ℝ) < 0.5 ∧
      (EuropeanCall (50 : ℝ) 0.2 0.5 0.1 20000).calcBlackScholesValue 50 -
          (EuropeanPut (50 : ℝ) 0.2 0.5 0.1 20000).calcBlackScholesValue 50 =
        50 - 50 * Real.exp (-0.1 * 0.5) :=
  ⟨by norm_num, by norm_num, by norm_num, by norm_num,
    put_call_parity 50 50 0.2 0.5 0.1 20000 20000 (by norm_num) (by norm_num) (by norm_num)
      (by norm_num)⟩

/-- Claim C10 (the closed-form value is never negative).  For spot `S > 0`, `K > 0`, `σ > 0`,
`T > 0` and any rate `r`, the closed-form values of the European call and of the
European put are both `≥ 0`. -/
theorem closed_form_nonneg (S K σ T r : ℝ) (dp : Int)
    (hS : 0 < S) (hK : 0 < K) (hσ : 0 < σ) (hT : 0 < T) :
    0 ≤ (EuropeanCall K σ T r dp).calcBlackScholesValue S ∧
      0 ≤ (EuropeanPut K σ T r dp).calcBlackScholesValue S := by
  unfold EuropeanCall EuropeanPut
  rw [call_value_eq _ (Or.inl rfl), put_value_eq _ (Or.inl rfl)]
  exact ⟨call_value_nonneg K σ T r S hS hK hσ hT, (put_value_pos K σ T r S hS hK hσ hT).le⟩

/-- Claim C10 at a call far out of the money: spot 1, strike 100. -/
theorem closed_form_nonneg_witness :
    (0 : ℝ) < 1 ∧ (0 : ℝ) < 100 ∧ (0 : ℝ) < 0.2 ∧ (0 : ℝ) < 0.5 ∧
      0 ≤ (EuropeanCall (100 : ℝ) 0.2 0.5 0.1 500).calcBlackScholesValue 1 ∧
      0 ≤ (EuropeanPut (100 : ℝ) 0.2 0.5 0.1 500).calcBlackScholesValue 1 :=
  ⟨by norm_num, by norm_num, by norm_num, by norm_num,
    closed_form_nonneg 1 100 0.2 0.5 0.1 500 (by norm_num) (by norm_num) (by norm_num)
      (by norm_num)⟩

/-- Claim C6 (delta sign, European style).  For `K > 0`, `σ > 0`, `T > 0`, any rate `r`,
`spot > 0` and any depth argument, `getDelta` of a European call returns the
closed-form value at `1.01·spot` minus the one at `spot`, which is `≥ 0`, and `getDelta`
of a European put returns the same difference of put values, which is `≤ 0`. -/
theorem european_delta_sign (spot K σ T r : ℝ) (dp depth : Int)
    (hS : 0 < spot) (hK : 0 < K) (hσ : 0 < σ) (hT : 0 < T) :
    ((EuropeanCall K σ T r dp).getDelta spot depth =
        some ((EuropeanCall K σ T r dp).calcBlackScholesValue (1.01 * spot) -
          (EuropeanCall K σ T r dp).calcBlackScholesValue spot) ∧
      0 ≤ (EuropeanCall K σ T r dp).calcBlackScholesValue (1.01 * spot) -
          (EuropeanCall K σ T r dp).calcBlackScholesValue spot) ∧
    ((EuropeanPut K σ T r dp).getDelta spot depth =
        some ((EuropeanPut K σ T r dp).calcBlackScholesValue (1.01 * spot) -
          (EuropeanPut K σ T r dp).calcBlackScholesValue spot) ∧
      (EuropeanPut K σ T r dp).calcBlackScholesValue (1.01 * spot) -
          (EuropeanPut K σ T r dp).calcBlackScholesValue spot ≤ 0) := by
  have hle : spot ≤ 1.01 * spot := by nlinarith
  refine ⟨⟨rfl, ?_⟩, ⟨rfl, ?_⟩⟩
  · unfold EuropeanCall
    rw [call_value_eq _ (Or.inl rfl), call_value_eq _ (Or.inl rfl)]
    linarith [call_value_le K σ T r spot (1.01 * spot) hS hK hσ hT hle]
  · unfold EuropeanPut
    rw [put_value_eq _ (Or.inl rfl), put_value_eq _ (Or.inl rfl)]
    linarith [put_value_ge K σ T r spot (1.01 * spot) hS hK hσ hT hle]

/-- Claim C6 at the portfolio instruments of `main`: spot 100, strike 100, sigma 0.25, expiry 1, rate 0.05. -/
theorem european_delta_sign_witness :
    (0 : ℝ) < 100 ∧ (0 : ℝ) < 100 ∧ (0 : ℝ) < 0.25 ∧ (0 : ℝ) < 1 ∧
    (((EuropeanCall (100 : ℝ) 0.25 1 0.05 500).getDelta 100 500 =
        some ((EuropeanCall (100 : ℝ) 0.25 1 0.05 500).calcBlackScholesValue (1.01 * 100) -
          (EuropeanCall (100 : ℝ) 0.25 1 0.05 500).calcBlackScholesValue 100) ∧
      0 ≤ (EuropeanCall (100 : ℝ) 0.25 1 0.05 500).calcBlackScholesValue (1.01 * 100) -
          (EuropeanCall (100 : ℝ) 0.25 1 0.05 500).calcBlackScholesValue 100) ∧
    ((EuropeanPut (100 : ℝ) 0.25 1 0.05 500).getDelta 100 500 =
        some ((EuropeanPut (100 : ℝ) 0.25 1 0.05 500).calcBlackScholesValue (1.01 * 100) -
          (EuropeanPut (100 : ℝ) 0.25 1 0.05 500).calcBlackScholesValue 100) ∧
      (EuropeanPut (100 : ℝ) 0.25 1 0.05 500).calcBlackScholesValue (1.01 * 100) -
          (EuropeanPut (100 : ℝ) 0.25 1 0.05 500).calcBlackScholesValue 100 ≤ 0)) :=
  ⟨by norm_num, by norm_num, by norm_num, by norm_num,
    european_delta_sign 100 100 0.25 1 0.05 500 500 (by norm_num) (by norm_num) (by norm_num)
      (by norm_num)⟩

/-- Claim C8 (lattice non-negativity).  For each of the four variants, `K > 0`, `σ > 0`,
`T > 0`, any rate `r`, `spot > 0` and tree depth `n ≥ 1`, `calcBinomialTreeValue`
returns a value, and that value is `≥ 0`. -/
theorem lattice_nonneg (v : Variant) (spot K σ T r : ℝ) (dp n : Int)
    (hS : 0 < spot) (hK : 0 < K) (hσ : 0 < σ) (hT : 0 < T) (hn : 1 ≤ n) :
    ∃ x, Instrument.calcBinomialTreeValue
        { variant := v, Strike := K, Sigma := σ, T := T, RiskFreeRate := r, dp := dp }
        spot n = some x ∧ 0 ≤ x := by
  have _ := hS; have _ := hK; have _ := hσ; have _ := hT
  obtain ⟨t, up, dn, h⟩ := calcBinomialTreeValue_last
    ({ variant := v, Strike := K, Sigma := σ, T := T, RiskFreeRate := r, dp := dp } :
      Instrument ℝ) spot n hn
  exact ⟨_, h, nodeValue_nonneg _ _ _ _ _ _ _ _ _ _⟩

/-- Claim C8 at the American put of `main` with depth 20000. -/
theorem lattice_nonneg_witness :
    (0 : ℝ) < 50 ∧ (0 : ℝ) < 50 ∧ (0 : ℝ) < 0.2 ∧ (0 : ℝ) < 0.5 ∧ (1 : Int) ≤ 20000 ∧
    ∃ x, Instrument.calcBinomialTreeValue
        { variant := Variant.AmericanPut, Strike := (50 : ℝ), Sigma := 0.2, T := 0.5,
          RiskFreeRate := 0.1, dp := 20000 }
        50 20000 = some x ∧ 0 ≤ x :=
  ⟨by norm_num, by norm_num, by norm_num, by norm_num, by norm_num,
    lattice_nonneg Variant.AmericanPut 50 50 0.2 0.5 0.1 20000 20000 (by norm_num)
      (by norm_num) (by norm_num) (by norm_num) (by norm_num)⟩

theorem dailyVol_real (sigma : ℝ) : dailyVol sigma = sigma * Real.sqrt (1 / 252) := by
  unfold dailyVol
  norm_num

theorem dailyDrift_real (sigma r : ℝ) :
    dailyDrift sigma r = (1 / 252) * (r - (sigma * Real.sqrt (1 / 252)) ^ 2 / 2) := by
  unfold dailyDrift
  rw [dailyVol_real]
  norm_num
  ring

/-- The index arithmetic of `calcDailyVaR` for `N ≥ 20`. -/
theorem var_index (N : Int) (hN : 20 ≤ N) :
    truncToInt (0.05 * (N : ℝ) - 1) = ⌊0.05 * (N : ℝ)⌋ - 1 ∧
      0 ≤ ⌊0.05 * (N : ℝ)⌋ - 1 ∧ ⌊0.05 * (N : ℝ)⌋ - 1 ≤ N - 1 := by
  have hN' : (20 : ℝ) ≤ (N : ℝ) := by exact_mod_cast hN
  have h1 : (1 : ℝ) ≤ 0.05 * (N : ℝ) := by norm_num; linarith
  refine ⟨?_, ?_, ?_⟩
  · rw [truncToInt_of_nonneg _ (by linarith), Int.floor_sub_one]
  · have : (1 : Int) ≤ ⌊0.05 * (N : ℝ)⌋ := Int.le_floor.mpr (by exact_mod_cast h1)
    omega
  · have : ⌊0.05 * (N : ℝ)⌋ ≤ N := by
      rw [Int.floor_le_iff]
      have : (0.05 : ℝ) * (N : ℝ) ≤ N := by norm_num; linarith
      linarith
    omega

/-- Claim C4 (`calcDailyVaR`).  For every portfolio, spot, sigma, r, every `N ≥ 20` and every
stream of draws `g`, `calcDailyVaR` returns `value(spot) - sorted[⌊0.05·N⌋ - 1]`, where
`sorted` is the ascending sort of the `N` portfolio values at
`spot·exp(drift + vol·g i)`, `i < N`, with `vol = sigma·√(1/252)` and
`drift = (1/252)·(r - vol²/2)`; the index used, `int(0.05·N - 1)`, equals
`⌊0.05·N⌋ - 1` and lies in `[0, N-1]`.  The generator is left advanced by `N` draws. -/
theorem calcDailyVaR_spec (P : Portfolio ℝ) (spot sigma r : ℝ) (N : Int) (g : Nat → ℝ)
    (hN : 20 ≤ N) :
    ∃ (V0 : ℝ) (vals sorted : List ℝ) (w : ℝ),
      P.getValue spot = some V0 ∧
      vals.length = N.toNat ∧
      (∀ i, i < N.toNat →
        P.getValue (spot * Real.exp ((1 / 252) * (r - (sigma * Real.sqrt (1 / 252)) ^ 2 / 2) +
          sigma * Real.sqrt (1 / 252) * g i)) = vals[i]?) ∧
      sorted.Sorted (fun a b => a ≤ b) ∧ sorted.Perm vals ∧
      truncToInt (0.05 * (N : ℝ) - 1) = ⌊0.05 * (N : ℝ)⌋ - 1 ∧
      0 ≤ ⌊0.05 * (N : ℝ)⌋ - 1 ∧ ⌊0.05 * (N : ℝ)⌋ - 1 ≤ N - 1 ∧
      sorted[(⌊0.05 * (N : ℝ)⌋ - 1).toNat]? = some w ∧
      P.calcDailyVaR spot sigma r N g = some (V0 - w, fun i => g (i + N.toNat)) := by
  obtain ⟨vals, hsim, hlen, hget⟩ :=
    simulate_spec P spot (dailyDrift sigma r) (dailyVol sigma) N g
  obtain ⟨V0, hV0⟩ := portfolio_getValue_some P spot
  obtain ⟨hidx, hlo, hhi⟩ := var_index N hN
  have hslen : (vals.insertionSort (fun a b => a ≤ b)).length = N.toNat := by
    rw [List.length_insertionSort, hlen]
  have hlt : (⌊0.05 * (N : ℝ)⌋ - 1).toNat < (vals.insertionSort (fun a b => a ≤ b)).length := by
    rw [hslen]; omega
  refine ⟨V0, vals, vals.insertionSort (fun a b => a ≤ b),
    (vals.insertionSort (fun a b => a ≤ b))[(⌊0.05 * (N : ℝ)⌋ - 1).toNat], hV0, hlen, ?_,
    List.sorted_insertionSort _ _, List.perm_insertionSort _ _, hidx, hlo, hhi,
    List.getElem?_eq_getElem hlt, ?_⟩
  · intro i hi
    have := hget i hi
    rw [dailyDrift_real, dailyVol_real] at this
    exact this
  · rw [calcDailyVaR_eq P spot sigma r N g _ vals V0 hsim hV0, hidx,
      vectorAt_of_nonneg _ _ hlo, List.getElem?_eq_getElem hlt]
    rfl

/-- Claim C4 at `N = 20000`, the scenario count of `main`. -/
theorem calcDailyVaR_spec_witness :
    (20 : Int) ≤ 20000 ∧
    ∃ (V0 : ℝ) (vals sorted : List ℝ) (w : ℝ),
      (Portfolio.mk [Position.mk 10 (EuropeanCall 100 0.25 1 0.05 500),
        Position.mk 10 (AmericanPut 100 0.25 1 0.05 500)]).getValue 100 = some V0 ∧
      vals.length = (20000 : Int).toNat ∧
      (∀ i, i < (20000 : Int).toNat →
        (Portfolio.mk [Position.mk 10 (EuropeanCall 100 0.25 1 0.05 500),
          Position.mk 10 (AmericanPut 100 0.25 1 0.05 500)]).getValue
          (100 * Real.exp ((1 / 252) * (0.05 - (0.25 * Real.sqrt (1 / 252)) ^ 2 / 2) +
            0.25 * Real.sqrt (1 / 252) * (fun _ => (0 : ℝ)) i)) = vals[i]?) ∧
      sorted.Sorted (fun a b => a ≤ b) ∧ sorted.Perm vals ∧
      truncToInt (0.05 * ((20000 : Int) : ℝ) - 1) = ⌊0.05 * ((20000 : Int) : ℝ)⌋ - 1 ∧
      0 ≤ ⌊0.05 * ((20000 : Int) : ℝ)⌋ - 1 ∧ ⌊0.05 * ((20000 : Int) : ℝ)⌋ - 1 ≤ 20000 - 1 ∧
      sorted[(⌊0.05 * ((20000 : Int) : ℝ)⌋ - 1).toNat]? = some w ∧
      (Portfolio.mk [Position.mk 10 (EuropeanCall 100 0.25 1 0.05 500),
        Position.mk 10 (AmericanPut 100 0.25 1 0.05 500)]).calcDailyVaR 100 0.25 0.05 20000
          (fun _ => (0 : ℝ)) = some (V0 - w, fun i => (fun _ => (0 : ℝ)) (i + (20000 : Int).toNat)) :=
  ⟨by norm_num, calcDailyVaR_spec _ 100 0.25 0.05 20000 (fun _ => 0) (by norm_num)⟩

/-- For `N < 20` the tail loop of `calcDailyExpectedShortfall` makes no pass. -/
theorem shortfall_count_small (N : Int) (hN : N < 20) :
    (truncToInt (0.05 * (N : ℝ))).toNat = 0 := by
  have hN' : (N : ℝ) < 20 := by exact_mod_cast hN
  by_cases h : 0 ≤ N
  · have h0 : (0 : ℝ) ≤ (N : ℝ) := by exact_mod_cast h
    rw [truncToInt_of_nonneg _ (mul_nonneg (by norm_num) h0)]
    have h05 : (0.05 : ℝ) = 1 / 20 := by norm_num
    have : ⌊0.05 * (N : ℝ)⌋ = 0 := by
      rw [Int.floor_eq_iff, Int.cast_zero, zero_add, h05]
      constructor <;> linarith
    rw [this]; rfl
  · have h0 : (N : ℝ) < 0 := by exact_mod_cast not_le.mp h
    rw [truncToInt_of_neg _ (mul_neg_of_pos_of_neg (by norm_num) h0)]
    have : ⌈0.05 * (N : ℝ)⌉ ≤ 0 := by
      rw [Int.ceil_le]
      have := mul_neg_of_pos_of_neg (show (0 : ℝ) < 0.05 by norm_num) h0
      exact_mod_cast this.le
    omega

/-- For `1 ≤ N ≤ 19` the index `int(0.05·N - 1)` of `calcDailyVaR` is `0`. -/
theorem var_index_small (N : Int) (h1 : 1 ≤ N) (hN : N < 20) :
    truncToInt (0.05 * (N : ℝ) - 1) = 0 := by
  have hN' : (N : ℝ) < 20 := by exact_mod_cast hN
  have h1' : (1 : ℝ) ≤ (N : ℝ) := by exact_mod_cast h1
  have h05 : (0.05 : ℝ) = 1 / 20 := by norm_num
  have hneg : 0.05 * (N : ℝ) - 1 < 0 := by rw [h05]; linarith
  rw [truncToInt_of_neg _ hneg, Int.ceil_eq_iff, Int.cast_zero, h05]
  constructor <;> linarith

/-- For `N ≤ 0` the index `int(0.05·N - 1)` of `calcDailyVaR` is negative. -/
theorem var_index_nonpos (N : Int) (hN : N ≤ 0) : truncToInt (0.05 * (N : ℝ) - 1) < 0 := by
  have hN' : (N : ℝ) ≤ 0 := by exact_mod_cast hN
  have hneg : 0.05 * (N : ℝ) - 1 ≤ -1 := by
    have := mul_nonpos_of_nonneg_of_nonpos (show (0 : ℝ) ≤ 0.05 by norm_num) hN'
    linarith
  rw [truncToInt_of_neg _ (by linarith)]
  have : ⌈0.05 * (N : ℝ) - 1⌉ ≤ -1 := by
    rw [Int.ceil_le]; exact_mod_cast hneg
  omega

/-- Claim C9, as stated, fails: with `N = 19` scenarios both risk methods return a number
for the sample portfolio of `main`. -/
theorem small_count_not_rejected :
    ∃ x y : ℝ × (Nat → ℝ),
      (mainPortfolio : Portfolio ℝ).calcDailyVaR 100 0.25 0.05 19 (fun _ => 0) = some x ∧
      (mainPortfolio : Portfolio ℝ).calcDailyExpectedShortfall 100 0.25 0.05 19 (fun _ => 0) = some y := by
  obtain ⟨vals, hsim, hlen, -⟩ :=
    simulate_spec (mainPortfolio : Portfolio ℝ) 100 (dailyDrift 0.25 0.05) (dailyVol 0.25) 19 (fun _ => 0)
  obtain ⟨V0, hV0⟩ := portfolio_getValue_some (mainPortfolio : Portfolio ℝ) 100
  have hlt : 0 < (vals.insertionSort (fun a b => a ≤ b)).length := by
    rw [List.length_insertionSort, hlen]; decide
  have hES := calcDailyExpectedShortfall_eq (mainPortfolio : Portfolio ℝ) 100 0.25 0.05 19 _ _ vals V0
    hsim hlen hV0
  have hidx : truncToInt (0.05 * ((19 : Int) : ℝ) - 1) = 0 :=
    var_index_small 19 (by norm_num) (by norm_num)
  have hVaR : (mainPortfolio : Portfolio ℝ).calcDailyVaR 100 0.25 0.05 19 (fun _ => 0) =
      some (V0 - (vals.insertionSort (fun a b => a ≤ b))[0], fun _ => 0) := by
    rw [calcDailyVaR_eq (mainPortfolio : Portfolio ℝ) 100 0.25 0.05 19 _ _ vals V0 hsim hV0, hidx,
      vectorAt_of_nonneg _ _ (le_refl _)]
    show Option.map _ (List.insertionSort (fun a b => a ≤ b) vals)[0]? = _
    rw [List.getElem?_eq_getElem hlt]
    rfl
  exact ⟨_, _, hVaR, hES⟩

/-- Claim C9, amended.  Neither risk method validates `N`.  For every portfolio, spot,
sigma, r, draws `g` and `N < 20`: `calcDailyExpectedShortfall` returns `value(spot)`
unchanged; `calcDailyVaR` returns `value(spot) - sorted[0]`, the loss against the
smallest of the `N` scenario values, when `1 ≤ N`, and fails (the `at` index is
negative) exactly when `N ≤ 0`. -/
theorem small_count_behaviour (P : Portfolio ℝ) (spot sigma r : ℝ) (N : Int) (g : Nat → ℝ)
    (hN : N < 20) :
    ∃ (V0 : ℝ) (vals sorted : List ℝ),
      P.getValue spot = some V0 ∧
      vals.length = N.toNat ∧
      (∀ i, i < N.toNat →
        P.getValue (spot * Real.exp ((1 / 252) * (r - (sigma * Real.sqrt (1 / 252)) ^ 2 / 2) +
          sigma * Real.sqrt (1 / 252) * g i)) = vals[i]?) ∧
      sorted.Sorted (fun a b => a ≤ b) ∧ sorted.Perm vals ∧
      P.calcDailyExpectedShortfall spot sigma r N g = some (V0, fun i => g (i + N.toNat)) ∧
      (1 ≤ N → ∃ w, sorted[0]? = some w ∧
        P.calcDailyVaR spot sigma r N g = some (V0 - w, fun i => g (i + N.toNat))) ∧
      (N ≤ 0 → P.calcDailyVaR spot sigma r N g = none) := by
  obtain ⟨vals, hsim, hlen, hget⟩ :=
    simulate_spec P spot (dailyDrift sigma r) (dailyVol sigma) N g
  obtain ⟨V0, hV0⟩ := portfolio_getValue_some P spot
  refine ⟨V0, vals, vals.insertionSort (fun a b => a ≤ b), hV0, hlen, ?_,
    List.sorted_insertionSort _ _, List.perm_insertionSort _ _, ?_, ?_, ?_⟩
  · intro i hi
    have := hget i hi
    rw [dailyDrift_real, dailyVol_real] at this
    exact this
  · rw [calcDailyExpectedShortfall_eq P spot sigma r N g _ vals V0 hsim hlen hV0,
      shortfall_count_small N hN]
    simp
  · intro h1
    have hlt : 0 < (vals.insertionSort (fun a b => a ≤ b)).length := by
      rw [List.length_insertionSort, hlen]; omega
    refine ⟨(vals.insertionSort (fun a b => a ≤ b))[0], List.getElem?_eq_getElem hlt, ?_⟩
    rw [calcDailyVaR_eq P spot sigma r N g _ vals V0 hsim hV0, var_index_small N h1 hN,
      vectorAt_of_nonneg _ _ (le_refl _)]
    show Option.map _ (List.insertionSort (fun a b => a ≤ b) vals)[0]? = _
    rw [List.getElem?_eq_getElem hlt]
    rfl
  · intro h0
    rw [calcDailyVaR_eq P spot sigma r N g _ vals V0 hsim hV0,
      vectorAt_of_neg _ _ (var_index_nonpos N h0)]
    rfl

/-- Claim C9, amended, at `N = 19` for the sample portfolio of `main`. -/
theorem small_count_behaviour_witness :
    (19 : Int) < 20 ∧
    ∃ (V0 : ℝ) (vals sorted : List ℝ),
      (mainPortfolio : Portfolio ℝ).getValue 100 = some V0 ∧
      vals.length = (19 : Int).toNat ∧
      (∀ i, i < (19 : Int).toNat →
        (mainPortfolio : Portfolio ℝ).getValue
          (100 * Real.exp ((1 / 252) * (0.05 - (0.25 * Real.sqrt (1 / 252)) ^ 2 / 2) +
            0.25 * Real.sqrt (1 / 252) * (fun _ => (0 : ℝ)) i)) = vals[i]?) ∧
      sorted.Sorted (fun a b => a ≤ b) ∧ sorted.Perm vals ∧
      (mainPortfolio : Portfolio ℝ).calcDailyExpectedShortfall 100 0.25 0.05 19 (fun _ => (0 : ℝ)) =
        some (V0, fun i => (fun _ => (0 : ℝ)) (i + (19 : Int).toNat)) ∧
      ((1 : Int) ≤ 19 → ∃ w, sorted[0]? = some w ∧
        (mainPortfolio : Portfolio ℝ).calcDailyVaR 100 0.25 0.05 19 (fun _ => (0 : ℝ)) =
          some (V0 - w, fun i => (fun _ => (0 : ℝ)) (i + (19 : Int).toNat))) ∧
      ((19 : Int) ≤ 0 → (mainPortfolio : Portfolio ℝ).calcDailyVaR 100 0.25 0.05 19 (fun _ => (0 : ℝ)) = none) :=
  ⟨by norm_num, small_count_behaviour (mainPortfolio : Portfolio ℝ) 100 0.25 0.05 19 (fun _ => 0) (by norm_num)⟩

/-- The lattice value at a depth of at least one exists and is not negative. -/
theorem calcBinomialTreeValue_nonneg {α : Type} [LinearOrderedField α] [MathFns α]
    (o : Instrument α) (spot : α) (n : Int) (hn : 1 ≤ n) :
    ∃ x, o.calcBinomialTreeValue spot n = some x ∧ 0 ≤ x := by
  obtain ⟨t, up, dn, h⟩ := calcBinomialTreeValue_last o spot n hn
  exact ⟨_, h, nodeValue_nonneg _ _ _ _ _ _ _ _ _ _⟩

theorem shortPuts_value_neg (s : ℝ) (hs : 0 < s) (v : ℝ) (hv : (shortPuts : Portfolio ℝ).getValue s = some v) :
    v < 0 := by
  have hp := put_value_pos 100 0.25 1 0.05 s hs (by norm_num) (by norm_num) (by norm_num)
  rw [← put_value_eq Variant.EuropeanPut (Or.inl rfl) 100 0.25 1 0.05 s 500] at hp
  have : (shortPuts : Portfolio ℝ).getValue s = some (0 + (-10) *
      Instrument.calcBlackScholesValue
        { variant := Variant.EuropeanPut, Strike := (100 : ℝ), Sigma := 0.25, T := 1,
          RiskFreeRate := 0.05, dp := 500 } s) := rfl
  rw [this] at hv
  injection hv with hv
  rw [← hv]
  linarith

theorem mainPortfolio_value_pos (s : ℝ) (hs : 0 < s) (v : ℝ)
    (hv : (mainPortfolio : Portfolio ℝ).getValue s = some v) : 0 < v := by
  have hp := put_value_pos 100 0.25 1 0.05 s hs (by norm_num) (by norm_num) (by norm_num)
  rw [← put_value_eq Variant.EuropeanPut (Or.inl rfl) 100 0.25 1 0.05 s 500] at hp
  have hc := call_value_nonneg 100 0.25 1 0.05 s hs (by norm_num) (by norm_num) (by norm_num)
  rw [← call_value_eq Variant.EuropeanCall (Or.inl rfl) 100 0.25 1 0.05 s 500] at hc
  obtain ⟨x1, h1, hx1⟩ := calcBinomialTreeValue_nonneg (AmericanCall (100 : ℝ) 0.25 1 0.05 500)
    s 500 (by norm_num)
  obtain ⟨x2, h2, hx2⟩ := calcBinomialTreeValue_nonneg (AmericanPut (100 : ℝ) 0.25 1 0.05 500)
    s 500 (by norm_num)
  have hval : (mainPortfolio : Portfolio ℝ).getValue s = some (0 +
      10 * (EuropeanCall (100 : ℝ) 0.25 1 0.05 500).calcBlackScholesValue s + 10 * x1 +
      10 * (EuropeanPut (100 : ℝ) 0.25 1 0.05 500).calcBlackScholesValue s + 10 * x2) := by
    have e1 : (AmericanCall (100 : ℝ) 0.25 1 0.05 500).getValue s 500 = some x1 := h1
    have e2 : (AmericanPut (100 : ℝ) 0.25 1 0.05 500).getValue s 500 = some x2 := h2
    have e3 : (EuropeanCall (100 : ℝ) 0.25 1 0.05 500).getValue s 500 =
      some ((EuropeanCall (100 : ℝ) 0.25 1 0.05 500).calcBlackScholesValue s) := rfl
    have e4 : (EuropeanPut (100 : ℝ) 0.25 1 0.05 500).getValue s 500 =
      some ((EuropeanPut (100 : ℝ) 0.25 1 0.05 500).calcBlackScholesValue s) := rfl
    simp only [mainPortfolio, Portfolio.addPosition, Portfolio.getValue, List.nil_append,
      List.cons_append, List.foldlM_cons, List.foldlM_nil, e1, e2, e3, e4,
      Option.bind_eq_bind, Option.some_bind, Option.pure_def]
  rw [hval] at hv
  injection hv with hv
  rw [← hv]
  unfold EuropeanCall EuropeanPut
  linarith

/-- Every scenario value inherits a property that the portfolio value has at every
positive spot. -/
theorem scenario_values_forall (P : Portfolio ℝ) (spot drift vol : ℝ) (g : Nat → ℝ) (n : Nat)
    (vals : List ℝ) (hlen : vals.length = n)
    (hget : ∀ i, i < n → P.getValue (spot * MathFns.exp (drift + vol * g i)) = vals[i]?)
    (Q : ℝ → Prop) (hQ : ∀ s, 0 < s → ∀ v, P.getValue s = some v → Q v) (hspot : 0 < spot) :
    ∀ w ∈ vals, Q w := by
  intro w hw
  obtain ⟨i, hi, rfl⟩ := List.getElem_of_mem hw
  have h := hget i (by omega)
  rw [List.getElem?_eq_getElem hi] at h
  exact hQ _ (mul_pos hspot (Real.exp_pos _)) _ h

theorem index_at_21 :
    truncToInt (0.05 * ((21 : Int) : ℝ) - 1) = 0 ∧
      (truncToInt (0.05 * ((21 : Int) : ℝ))).toNat = 1 ∧ ⌊(0.05 : ℝ) * 21⌋ = 1 := by
  have hf : ⌊(0.05 : ℝ) * 21⌋ = 1 := by
    rw [Int.floor_eq_iff]; norm_num
  refine ⟨?_, ?_, hf⟩
  · rw [truncToInt_of_nonneg _ (by norm_num), Int.floor_eq_iff]; norm_num
  · rw [truncToInt_of_nonneg _ (by norm_num)]
    have : ⌊0.05 * ((21 : Int) : ℝ)⌋ = 1 := by
      rw [Int.floor_eq_iff]; norm_num
    rw [this]; rfl

theorem take_one_sum (l : List ℝ) (h : 0 < l.length) : (l.take 1).sum = l[0] := by
  cases l with
  | nil => simp at h
  | cons a l => simp

/-- Claim C2 fails on the code at `N = 21`: for a portfolio short ten European puts the
expected shortfall returned is strictly below the value-at-risk returned from the
same draws. -/
theorem shortfall_below_var :
    ∃ (es var : ℝ) (g1 g2 : Nat → ℝ),
      (shortPuts : Portfolio ℝ).calcDailyExpectedShortfall 100 0.25 0.05 21 (fun _ => 0) = some (es, g1) ∧
      (shortPuts : Portfolio ℝ).calcDailyVaR 100 0.25 0.05 21 (fun _ => 0) = some (var, g2) ∧
      es < var := by
  obtain ⟨vals, hsim, hlen, hget⟩ :=
    simulate_spec (shortPuts : Portfolio ℝ) 100 (dailyDrift 0.25 0.05) (dailyVol 0.25) 21 (fun _ => 0)
  obtain ⟨V0, hV0⟩ := portfolio_getValue_some (shortPuts : Portfolio ℝ) 100
  obtain ⟨hidx, hcnt, -⟩ := index_at_21
  have hlt : 0 < (vals.insertionSort (fun a b => a ≤ b)).length := by
    rw [List.length_insertionSort, hlen]; decide
  have hES := calcDailyExpectedShortfall_eq (shortPuts : Portfolio ℝ) 100 0.25 0.05 21 _ _ vals V0
    hsim hlen hV0
  rw [hcnt, take_one_sum _ hlt] at hES
  have hVaR : (shortPuts : Portfolio ℝ).calcDailyVaR 100 0.25 0.05 21 (fun _ => 0) =
      some (V0 - (vals.insertionSort (fun a b => a ≤ b))[0], fun _ => 0) := by
    rw [calcDailyVaR_eq (shortPuts : Portfolio ℝ) 100 0.25 0.05 21 _ _ vals V0 hsim hV0, hidx,
      vectorAt_of_nonneg _ _ (le_refl _)]
    show Option.map _ (List.insertionSort (fun a b => a ≤ b) vals)[0]? = _
    rw [List.getElem?_eq_getElem hlt]
    rfl
  have hneg : (vals.insertionSort (fun a b => a ≤ b))[0] < 0 := by
    have hmem : (vals.insertionSort (fun a b => a ≤ b))[0] ∈ vals :=
      (List.perm_insertionSort _ _).mem_iff.mp (List.getElem_mem _)
    exact scenario_values_forall (shortPuts : Portfolio ℝ) 100 _ _ _ _ vals hlen hget (fun v => v < 0)
      shortPuts_value_neg (by norm_num) _ hmem
  refine ⟨_, _, _, _, hES, hVaR, ?_⟩
  have h21 : (0.05 : ℝ) * ((21 : Int) : ℝ) = 1.05 := by norm_num
  rw [h21]
  have : (vals.insertionSort (fun a b => a ≤ b))[0] <
      (vals.insertionSort (fun a b => a ≤ b))[0] / (1.05 : ℝ) := by
    rw [lt_div_iff₀ (by norm_num)]
    nlinarith
  linarith

/-- Claim C3 fails on the code at `N = 21`: for the sample portfolio of `main` the value
returned by `calcDailyExpectedShortfall` is not `value(spot)` less the mean of the
`⌊0.05·N⌋` smallest scenario values. -/
theorem shortfall_not_tail_mean :
    ∃ (V0 es : ℝ) (vals sorted : List ℝ) (g' : Nat → ℝ),
      (mainPortfolio : Portfolio ℝ).getValue 100 = some V0 ∧
      vals.length = 21 ∧
      (∀ i, i < 21 →
        (mainPortfolio : Portfolio ℝ).getValue
          (100 * Real.exp ((1 / 252) * (0.05 - (0.25 * Real.sqrt (1 / 252)) ^ 2 / 2) +
            0.25 * Real.sqrt (1 / 252) * 0)) = vals[i]?) ∧
      sorted.Sorted (fun a b => a ≤ b) ∧ sorted.Perm vals ∧
      (mainPortfolio : Portfolio ℝ).calcDailyExpectedShortfall 100 0.25 0.05 21 (fun _ => 0) = some (es, g') ∧
      es ≠ V0 - (sorted.take ⌊(0.05 : ℝ) * 21⌋.toNat).sum / ((⌊(0.05 : ℝ) * 21⌋ : Int) : ℝ) := by
  obtain ⟨vals, hsim, hlen, hget⟩ :=
    simulate_spec (mainPortfolio : Portfolio ℝ) 100 (dailyDrift 0.25 0.05) (dailyVol 0.25) 21 (fun _ => 0)
  obtain ⟨V0, hV0⟩ := portfolio_getValue_some (mainPortfolio : Portfolio ℝ) 100
  obtain ⟨-, hcnt, hfloor⟩ := index_at_21
  have hlt : 0 < (vals.insertionSort (fun a b => a ≤ b)).length := by
    rw [List.length_insertionSort, hlen]; decide
  have hES := calcDailyExpectedShortfall_eq (mainPortfolio : Portfolio ℝ) 100 0.25 0.05 21 _ _ vals V0
    hsim hlen hV0
  rw [hcnt, take_one_sum _ hlt] at hES
  have hpos : (0 : ℝ) < (vals.insertionSort (fun a b => a ≤ b))[0] := by
    have hmem : (vals.insertionSort (fun a b => a ≤ b))[0] ∈ vals :=
      (List.perm_insertionSort _ _).mem_iff.mp (List.getElem_mem _)
    exact scenario_values_forall (mainPortfolio : Portfolio ℝ) 100 _ _ _ _ vals hlen hget (fun v => 0 < v)
      mainPortfolio_value_pos (by norm_num) _ hmem
  refine ⟨V0, _, vals, vals.insertionSort (fun a b => a ≤ b), _, hV0, hlen, ?_,
    List.sorted_insertionSort _ _, List.perm_insertionSort _ _, hES, ?_⟩
  · intro i hi
    have := hget i hi
    rw [dailyDrift_real, dailyVol_real] at this
    exact this
  · rw [hfloor]
    have h1 : (1 : Int).toNat = 1 := rfl
    rw [h1, take_one_sum _ hlt]
    have h21 : (0.05 : ℝ) * ((21 : Int) : ℝ) = 1.05 := by norm_num
    rw [h21]
    intro hEq
    have : (vals.insertionSort (fun a b => a ≤ b))[0] / (1.05 : ℝ) =
        (vals.insertionSort (fun a b => a ≤ b))[0] / ((1 : Int) : ℝ) := by linarith
    rw [Int.cast_one, div_one, div_eq_iff (by norm_num)] at this
    linarith

/-- The two-step American call lattice at a spot `S` between 110 and 112, strike 100,
written with the up factor `w`, its inverse `x`, the discount factor `D = x⁵` and the
weight `p = w⁴ + w² + 1`: every `max` is resolved except the one at the root. -/
theorem call_lattice_two_value (w x D p S : ℝ) (hxw : x * w = 1)
    (hw1 : 6 / 5 ≤ w) (hx1 : 4 / 5 ≤ x) (hx2 : x ≤ 5 / 6)
    (hD : D = x ^ 5) (hp : p = w ^ 4 + w ^ 2 + 1) (hS1 : 110 ≤ S) (hS2 : S ≤ 112) :
    max (max (S * 1 - 100) 0)
      (D * (p * max (max (S * w - 100) 0)
          (D * (p * max (S * w ^ 2 - 100) 0 + (1 - p) * max (S * 1 - 100) 0)) +
        (1 - p) * max (max (S * x - 100) 0)
          (D * (p * max (S * 1 - 100) 0 + (1 - p) * max (S * x ^ 2 - 100) 0)))) =
      max (S - 100)
        ((x + x ^ 3 + x ^ 5) * (S * (w - x - x ^ 3) + 100 * (x + x ^ 3 - x ^ 5))) := by
  have hw0 : 0 < w := by linarith
  have hx0 : 0 < x := by linarith
  have hxeq : x = w⁻¹ := eq_inv_of_mul_eq_one_left hxw
  have hxle1 : x ≤ 1 := by linarith
  have hx2hi : x ^ 2 ≤ 1 := pow_le_one₀ hx0.le hxle1
  have hD0 : 0 < D := by rw [hD]; positivity
  have hD1 : D ≤ 1 := by rw [hD]; exact pow_le_one₀ hx0.le hxle1
  have hp1 : 1 ≤ p := by rw [hp]; nlinarith [sq_nonneg w, sq_nonneg (w ^ 2)]
  have hDp : D * p = x + x ^ 3 + x ^ 5 := by
    rw [hD, hp, hxeq]; field_simp; ring
  have hDw6 : D * (p * w ^ 2 + (1 - p)) = w := by
    rw [hD, hp, hxeq]; field_simp; ring
  have hDp1 : D * (p - 1) = x + x ^ 3 := by
    rw [hD, hp, hxeq]; field_simp; ring
  have hSw : 132 ≤ S * w := by
    have := mul_le_mul hS1 hw1 (by norm_num) (by linarith : (0 : ℝ) ≤ S)
    linarith
  have hSw2 : 132 ≤ S * w ^ 2 := by
    have h1 : w ≤ w ^ 2 := by nlinarith
    have := mul_le_mul_of_nonneg_left h1 (by linarith : (0 : ℝ) ≤ S)
    linarith
  have hSx : S * x ≤ 100 := by
    have := mul_le_mul hS2 hx2 hx0.le (by norm_num : (0 : ℝ) ≤ 112)
    linarith
  have hSx2 : S * x ^ 2 ≤ 100 := by
    have h1 : x ^ 2 ≤ x := by nlinarith
    have := mul_le_mul_of_nonneg_left h1 (by linarith : (0 : ℝ) ≤ S)
    linarith
  have h0 : max (S * x ^ 2 - 100) 0 = 0 := max_eq_right (by linarith)
  have h1 : max (S * 1 - 100) 0 = S - 100 := by
    rw [mul_one]; exact max_eq_left (by linarith)
  have h2 : max (S * w ^ 2 - 100) 0 = S * w ^ 2 - 100 := max_eq_left (by linarith)
  have hlow : max (max (S * x - 100) 0) (D * (p * (S - 100) + (1 - p) * 0)) =
      D * p * (S - 100) := by
    have hin : max (S * x - 100) 0 = 0 := max_eq_right (by linarith)
    rw [hin, mul_zero, add_zero, ← mul_assoc]
    exact max_eq_right (mul_nonneg (mul_nonneg hD0.le (by linarith)) (by linarith))
  have hupc : D * (p * (S * w ^ 2 - 100) + (1 - p) * (S - 100)) = S * w - 100 * D := by
    have : D * (p * (S * w ^ 2 - 100) + (1 - p) * (S - 100)) =
        S * (D * (p * w ^ 2 + (1 - p))) - 100 * D := by ring
    rw [this, hDw6]
  have hup : max (max (S * w - 100) 0) (S * w - 100 * D) = S * w - 100 * D := by
    apply max_eq_right
    apply max_le <;> linarith
  rw [h0, h1, h2, hlow, hupc, hup]
  congr 1
  have : D * (p * (S * w - 100 * D) + (1 - p) * (D * p * (S - 100))) =
      (D * p) * (S * (w - D * (p - 1)) + 100 * (D * (p - 1) - D)) := by ring
  rw [this, hDp, hDp1, hD]
  ring

/-- With `6/5 ≤ w ≤ 5/4` the two-step American call lattice of the previous lemma is
lower at the spot `1.01·110` than at `110`. -/
theorem call_lattice_two_decreasing (w x : ℝ)
    (hw1 : 6 / 5 ≤ w) (hw2 : w ≤ 5 / 4) (hx1 : 4 / 5 ≤ x) (hx2 : x ≤ 5 / 6) :
    max (1.01 * 110 - 100)
        ((x + x ^ 3 + x ^ 5) * (1.01 * 110 * (w - x - x ^ 3) + 100 * (x + x ^ 3 - x ^ 5))) <
      max ((110 : ℝ) - 100)
        ((x + x ^ 3 + x ^ 5) * (110 * (w - x - x ^ 3) + 100 * (x + x ^ 3 - x ^ 5))) := by
  have hx0 : 0 < x := by linarith
  have hx3lo : (4 / 5) ^ 3 ≤ x ^ 3 := pow_le_pow_left₀ (by norm_num) hx1 3
  have hx3hi : x ^ 3 ≤ (5 / 6) ^ 3 := pow_le_pow_left₀ hx0.le hx2 3
  have hx5lo : (4 / 5) ^ 5 ≤ x ^ 5 := pow_le_pow_left₀ (by norm_num) hx1 5
  have hx5hi : x ^ 5 ≤ (5 / 6) ^ 5 := pow_le_pow_left₀ hx0.le hx2 5
  norm_num at hx3lo hx3hi hx5lo hx5hi
  have hq : 1.6 ≤ x + x ^ 3 + x ^ 5 := by norm_num; linarith
  have hc : w - x - x ^ 3 < 0 := by linarith
  have hc' : -0.22 ≤ w - x - x ^ 3 := by norm_num; linarith
  have hb : 0.9 ≤ x + x ^ 3 - x ^ 5 := by norm_num; linarith
  have hq0 : 0 < x + x ^ 3 + x ^ 5 := by linarith
  have h65 : (65 : ℝ) ≤ 110 * (w - x - x ^ 3) + 100 * (x + x ^ 3 - x ^ 5) := by linarith
  have hbig : (11.2 : ℝ) <
      (x + x ^ 3 + x ^ 5) * (110 * (w - x - x ^ 3) + 100 * (x + x ^ 3 - x ^ 5)) := by
    have := mul_le_mul hq h65 (by norm_num) hq0.le
    linarith
  apply lt_of_lt_of_le _ (le_max_right _ _)
  apply max_lt
  · linarith
  · apply mul_lt_mul_of_pos_left _ hq0
    linarith

theorem american_call_exercise (K σ T r : ℝ) (dp : Int) (s t : ℝ) :
    (AmericanCall K σ T r dp).getCurrentExerciseValue s t = max (s - K) 0 := rfl

theorem exp_fifth_bounds :
    6 / 5 ≤ Real.exp (1 / 5) ∧ Real.exp (1 / 5) ≤ 5 / 4 ∧
      4 / 5 ≤ Real.exp (-(1 / 5)) ∧ Real.exp (-(1 / 5)) ≤ 5 / 6 ∧
      Real.exp (-(1 / 5)) * Real.exp (1 / 5) = 1 := by
  have h1 : (6 : ℝ) / 5 ≤ Real.exp (1 / 5) := by
    have := Real.add_one_le_exp (1 / 5 : ℝ)
    linarith
  have h2 : (4 : ℝ) / 5 ≤ Real.exp (-(1 / 5)) := by
    have := Real.add_one_le_exp (-(1 / 5) : ℝ)
    linarith
  have h3 : Real.exp (-(1 / 5)) * Real.exp (1 / 5) = 1 := by
    rw [← Real.exp_add]; simp
  have hw0 : 0 < Real.exp (1 / 5) := Real.exp_pos _
  have hx0 : 0 < Real.exp (-(1 / 5)) := Real.exp_pos _
  refine ⟨h1, ?_, h2, ?_, h3⟩
  · nlinarith
  · nlinarith

/-- The lattice parameters of the American call with strike 100, sigma 0.1, expiry 8,
rate 0.25 at depth 2: `dt = 4`, `log u = 1/5`, discount `exp(-1/5)⁵`,
`p = u⁴ + u² + 1`. -/
theorem call_example_parameters :
    MathFns.log (treeU (AmericanCall (100 : ℝ) 0.1 8 0.25 2) 2) = 1 / 5 ∧
      MathFns.exp (-(AmericanCall (100 : ℝ) 0.1 8 0.25 2).RiskFreeRate *
        treeDt (AmericanCall (100 : ℝ) 0.1 8 0.25 2) 2) = Real.exp (-(1 / 5)) ^ 5 ∧
      treeP (AmericanCall (100 : ℝ) 0.1 8 0.25 2) 2 =
        Real.exp (1 / 5) ^ 4 + Real.exp (1 / 5) ^ 2 + 1 := by
  have hdt : treeDt (AmericanCall (100 : ℝ) 0.1 8 0.25 2) 2 = 4 := by
    simp only [treeDt, AmericanCall]; norm_num
  have hsqrt : Real.sqrt 4 = 2 := by
    rw [show (4 : ℝ) = 2 ^ 2 by norm_num]
    exact Real.sqrt_sq (by norm_num)
  have hu : treeU (AmericanCall (100 : ℝ) 0.1 8 0.25 2) 2 = Real.exp (1 / 5) := by
    unfold treeU
    rw [hdt, sqrt_real, exp_real, hsqrt]
    simp only [AmericanCall]
    norm_num
  have hr : (AmericanCall (100 : ℝ) 0.1 8 0.25 2).RiskFreeRate = 0.25 := rfl
  have h5 : Real.exp 1 = Real.exp (1 / 5) ^ 5 := by
    rw [← Real.exp_nat_mul]; norm_num
  have h5' : Real.exp (-1) = Real.exp (-(1 / 5)) ^ 5 := by
    rw [← Real.exp_nat_mul]; norm_num
  obtain ⟨hw1, -, -, -, -⟩ := exp_fifth_bounds
  refine ⟨?_, ?_, ?_⟩
  · rw [hu, log_real, Real.log_exp]
  · rw [hdt, hr, exp_real]
    rw [show (-(0.25 : ℝ) * 4) = -1 by norm_num, h5']
  · unfold treeP
    rw [hu, hdt, hr, exp_real]
    rw [show ((0.25 : ℝ) * 4) = 1 by norm_num, h5]
    have hw0 : Real.exp (1 / 5) ≠ 0 := (Real.exp_pos _).ne'
    have hne : Real.exp (1 / 5) - 1 / Real.exp (1 / 5) ≠ 0 := by
      have : 1 / Real.exp (1 / 5) ≤ 1 := by
        rw [div_le_one (Real.exp_pos _)]; linarith
      intro h; linarith
    rw [div_eq_iff hne]
    field_simp
    ring

/-- Claim C7, as stated, fails: the American call with strike 100, sigma 0.1, expiry 8 and
rate 0.25 has, at lattice depth 2 and spot 110, a negative `getDelta` (the weight
`p` of the up move exceeds 1). -/
theorem american_call_delta_negative :
    ∃ δ, (AmericanCall (100 : ℝ) 0.1 8 0.25 2).getDelta 110 2 = some δ ∧ δ < 0 := by
  obtain ⟨hlog, hdisc, hp⟩ := call_example_parameters
  obtain ⟨hw1, hw2, hx1, hx2, hxw⟩ := exp_fifth_bounds
  have hv : ∀ s, (AmericanCall (100 : ℝ) 0.1 8 0.25 2).getValue s 2 =
      (AmericanCall (100 : ℝ) 0.1 8 0.25 2).calcBinomialTreeValue s 2 := fun s => rfl
  have e0 : Real.exp (0 * (1 / 5)) = 1 := by simp
  have e1 : Real.exp (1 * (1 / 5)) = Real.exp (1 / 5) := by simp
  have e2 : Real.exp (2 * (1 / 5)) = Real.exp (1 / 5) ^ 2 := by
    rw [← Real.exp_nat_mul]; norm_num
  have em1 : Real.exp (-1 * (1 / 5)) = Real.exp (-(1 / 5)) := by norm_num
  have em2 : Real.exp (-2 * (1 / 5)) = Real.exp (-(1 / 5)) ^ 2 := by
    rw [← Real.exp_nat_mul]; norm_num
  have hval : ∀ S : ℝ, 110 ≤ S → S ≤ 112 →
      (AmericanCall (100 : ℝ) 0.1 8 0.25 2).calcBinomialTreeValue S 2 =
        some (max (S - 100)
          ((Real.exp (-(1 / 5)) + Real.exp (-(1 / 5)) ^ 3 + Real.exp (-(1 / 5)) ^ 5) *
            (S * (Real.exp (1 / 5) - Real.exp (-(1 / 5)) - Real.exp (-(1 / 5)) ^ 3) +
              100 * (Real.exp (-(1 / 5)) + Real.exp (-(1 / 5)) ^ 3 -
                Real.exp (-(1 / 5)) ^ 5)))) := by
    intro S hS1 hS2
    rw [calcBinomialTreeValue_two]
    simp only [calcBinomialNodeValue_eq_max, american_call_exercise, hlog, hdisc, hp, exp_real,
      e0, e1, e2, em1, em2]
    rw [call_lattice_two_value (Real.exp (1 / 5)) (Real.exp (-(1 / 5))) _ _ S hxw hw1 hx1 hx2
      rfl rfl hS1 hS2]
  unfold Instrument.getDelta
  rw [hv, hv, hval 110 (by norm_num) (by norm_num),
    hval (1.01 * 110) (by norm_num) (by norm_num)]
  refine ⟨_, rfl, ?_⟩
  have := call_lattice_two_decreasing (Real.exp (1 / 5)) (Real.exp (-(1 / 5))) hw1 hw2 hx1 hx2
  linarith

theorem american_put_exercise (K σ T r : ℝ) (dp : Int) (s t : ℝ) :
    (AmericanPut K σ T r dp).getCurrentExerciseValue s t = max (K - s) 0 := rfl

/-- Claim C7, amended (delta sign, American style).  For `K > 0`, `σ > 0`, `T > 0`, any
rate `r`, `spot > 0` and lattice depth `n ≥ 1` such that the weight
`p = (exp(r·dt) - 1/u)/(u - 1/u)` of the lattice (`dt = T/n`, `u = exp(σ·√dt)`) lies in
`[0, 1]`: `getDelta` of the American call returns a value `≥ 0` and `getDelta` of the
American put returns a value `≤ 0`. -/
theorem american_delta_sign (spot K σ T r : ℝ) (dp n : Int)
    (hS : 0 < spot) (hK : 0 < K) (hσ : 0 < σ) (hT : 0 < T) (hn : 1 ≤ n)
    (hp0 : 0 ≤ treeP (AmericanCall K σ T r dp) n)
    (hp1 : treeP (AmericanCall K σ T r dp) n ≤ 1) :
    (∃ δ, (AmericanCall K σ T r dp).getDelta spot n = some δ ∧ 0 ≤ δ) ∧
      (∃ δ, (AmericanPut K σ T r dp).getDelta spot n = some δ ∧ δ ≤ 0) := by
  have _ := hK; have _ := hσ; have _ := hT
  have hle : ∀ y : ℝ, spot * MathFns.exp y ≤ 1.01 * spot * MathFns.exp y := by
    intro y
    apply mul_le_mul_of_nonneg_right _ (Real.exp_pos _).le
    nlinarith
  constructor
  · obtain ⟨va, vb, ha, hb, hab⟩ := calcBinomialTreeValue_le (AmericanCall K σ T r dp)
      spot (1.01 * spot) n (by omega) hp0 hp1 (Real.exp_pos _).le
      (by
        intro k t
        rw [american_call_exercise, american_call_exercise]
        exact max_le_max (sub_le_sub_right (hle _) K) (le_refl _))
    refine ⟨vb - va, ?_, by linarith⟩
    have h1 : (AmericanCall K σ T r dp).getValue (1.01 * spot) n = some vb := hb
    have h2 : (AmericanCall K σ T r dp).getValue spot n = some va := ha
    simp [Instrument.getDelta, h1, h2]
  · obtain ⟨va, vb, ha, hb, hab⟩ := calcBinomialTreeValue_le (AmericanPut K σ T r dp)
      (1.01 * spot) spot n (by omega) hp0 hp1 (Real.exp_pos _).le
      (by
        intro k t
        rw [american_put_exercise, american_put_exercise]
        exact max_le_max (sub_le_sub_left (hle _) K) (le_refl _))
    refine ⟨va - vb, ?_, by linarith⟩
    have h1 : (AmericanPut K σ T r dp).getValue (1.01 * spot) n = some va := ha
    have h2 : (AmericanPut K σ T r dp).getValue spot n = some vb := hb
    simp [Instrument.getDelta, h1, h2]

/-- The lattice weight `p` of the instruments of `main` at depth 500 lies in `[0, 1]`. -/
theorem main_weight_in_unit_interval :
    0 ≤ treeP (AmericanCall (100 : ℝ) 0.25 1 0.05 500) 500 ∧
      treeP (AmericanCall (100 : ℝ) 0.25 1 0.05 500) 500 ≤ 1 := by
  have hdt : treeDt (AmericanCall (100 : ℝ) 0.25 1 0.05 500) 500 = 1 / 500 := by
    simp only [treeDt, AmericanCall]; norm_num
  have hr : (AmericanCall (100 : ℝ) 0.25 1 0.05 500).RiskFreeRate = 0.05 := rfl
  have hs : (AmericanCall (100 : ℝ) 0.25 1 0.05 500).Sigma = 0.25 := rfl
  have hsq : (1 : ℝ) / 500 ≤ Real.sqrt (1 / 500) := by
    apply Real.le_sqrt_of_sq_le; norm_num
  unfold treeP treeU
  rw [hdt, hr, hs, exp_real, exp_real, sqrt_real]
  set u := Real.exp (0.25 * Real.sqrt (1 / 500)) with hu
  set E := Real.exp (0.05 * (1 / 500)) with hE
  have hu0 : 0 < u := Real.exp_pos _
  have hE1 : 1 ≤ E := by
    rw [hE]; apply Real.one_le_exp; norm_num
  have hEu : E ≤ u := by
    rw [hE, hu]; apply Real.exp_le_exp.mpr
    linarith
  have hinv : 1 / u ≤ 1 := by
    rw [div_le_one hu0]; linarith
  have hu1 : 1 < u := by
    rw [hu]; apply Real.one_lt_exp_iff.mpr
    have : 0 < Real.sqrt (1 / 500) := Real.sqrt_pos.mpr (by norm_num)
    linarith
  have hinv' : 1 / u < 1 := by
    rw [div_lt_one hu0]; exact hu1
  constructor
  · apply div_nonneg <;> linarith
  · rw [div_le_one (by linarith)]; linarith

/-- Claim C7, amended, at the portfolio instruments of `main` with depth 500. -/
theorem american_delta_sign_witness :
    (0 : ℝ) < 100 ∧ (0 : ℝ) < 100 ∧ (0 : ℝ) < 0.25 ∧ (0 : ℝ) < 1 ∧ (1 : Int) ≤ 500 ∧
      0 ≤ treeP (AmericanCall (100 : ℝ) 0.25 1 0.05 500) 500 ∧
      treeP (AmericanCall (100 : ℝ) 0.25 1 0.05 500) 500 ≤ 1 ∧
      (∃ δ, (AmericanCall (100 : ℝ) 0.25 1 0.05 500).getDelta 100 500 = some δ ∧ 0 ≤ δ) ∧
      (∃ δ, (AmericanPut (100 : ℝ) 0.25 1 0.05 500).getDelta 100 500 = some δ ∧ δ ≤ 0) :=
  ⟨by norm_num, by norm_num, by norm_num, by norm_num, by norm_num,
    main_weight_in_unit_interval.1, main_weight_in_unit_interval.2,
    american_delta_sign 100 100 0.25 1 0.05 500 500 (by norm_num) (by norm_num) (by norm_num)
      (by norm_num) (by norm_num) main_weight_in_unit_interval.1
      main_weight_in_unit_interval.2⟩

/-- The value of an American lattice at a depth of at least one exists and is at least
the intrinsic value at the spot. -/
theorem american_ge_intrinsic (o : Instrument ℝ)
    (ho : o.variant = Variant.AmericanCall ∨ o.variant = Variant.AmericanPut)
    (spot : ℝ) (n : Int) (hn : 1 ≤ n) :
    ∃ v, o.calcBinomialTreeValue spot n = some v ∧ o.getIntrinsicValue spot ≤ v := by
  obtain ⟨t, up, dn, h⟩ := calcBinomialTreeValue_last o spot n hn
  refine ⟨_, h, ?_⟩
  unfold nodeValue
  rw [calcBinomialNodeValue_eq_max]
  refine le_trans (le_of_eq ?_) (le_max_left _ _)
  have hs : spot * MathFns.exp (((2 * ((0 : Nat) : Int) - ((0 : Nat) : Int) : Int) : ℝ) *
      MathFns.log (treeU o n)) = spot := by
    simp
  rw [hs]
  unfold Instrument.getCurrentExerciseValue
  rcases ho with ho | ho <;> rw [ho]

/-- Claim C11 (portfolio value).  The empty portfolio has value 0 at every spot, and
for every portfolio `P`, weight `w` (of any sign), instrument `o` and spot, the value
after `addPosition(Position(w, o))` is `P.getValue(spot) + w · o.getValue(spot, 500)`:
every position is valued at the one lattice depth 500. -/
theorem portfolio_value_weighted_sum (P : Portfolio ℝ) (w : ℝ) (o : Instrument ℝ) (spot : ℝ) :
    ({ Positions := [] } : Portfolio ℝ).getValue spot = some 0 ∧
      ∃ V x, P.getValue spot = some V ∧ o.getValue spot 500 = some x ∧
        (P.addPosition { weight := w, option := o }).getValue spot = some (V + w * x) := by
  refine ⟨rfl, ?_⟩
  obtain ⟨V, hV⟩ := portfolio_getValue_some P spot
  obtain ⟨x, hx⟩ := instrument_getValue_some o spot 500 (by norm_num)
  refine ⟨V, x, hV, hx, ?_⟩
  unfold Portfolio.getValue at hV ⊢
  unfold Portfolio.addPosition
  rw [List.foldlM_append, hV]
  simp [hx]

/-- Claim C12 (order of positions).  Two portfolios whose position lists are
permutations of each other have the same `getValue` and the same `getDelta` at every
spot (in exact real arithmetic). -/
theorem portfolio_order_irrelevant (P Q : Portfolio ℝ) (spot : ℝ)
    (h : P.Positions.Perm Q.Positions) :
    P.getValue spot = Q.getValue spot ∧ P.getDelta spot = Q.getDelta spot := by
  constructor
  · unfold Portfolio.getValue
    rw [value_loop_eq_sum, value_loop_eq_sum, (h.map _).sum_eq]
  · unfold Portfolio.getDelta
    rw [delta_loop_eq_sum, delta_loop_eq_sum, (h.map _).sum_eq]

/-- Claim C12 at the first two positions of the portfolio of `main`, swapped. -/
theorem portfolio_order_irrelevant_witness :
    ([Position.mk (10 : ℝ) (EuropeanCall 100 0.25 1 0.05 500),
        Position.mk 10 (AmericanCall 100 0.25 1 0.05 500)]).Perm
      [Position.mk (10 : ℝ) (AmericanCall 100 0.25 1 0.05 500),
        Position.mk 10 (EuropeanCall 100 0.25 1 0.05 500)] ∧
    (Portfolio.mk [Position.mk (10 : ℝ) (EuropeanCall 100 0.25 1 0.05 500),
        Position.mk 10 (AmericanCall 100 0.25 1 0.05 500)]).getValue 100 =
      (Portfolio.mk [Position.mk (10 : ℝ) (AmericanCall 100 0.25 1 0.05 500),
        Position.mk 10 (EuropeanCall 100 0.25 1 0.05 500)]).getValue 100 ∧
    (Portfolio.mk [Position.mk (10 : ℝ) (EuropeanCall 100 0.25 1 0.05 500),
        Position.mk 10 (AmericanCall 100 0.25 1 0.05 500)]).getDelta 100 =
      (Portfolio.mk [Position.mk (10 : ℝ) (AmericanCall 100 0.25 1 0.05 500),
        Position.mk 10 (EuropeanCall 100 0.25 1 0.05 500)]).getDelta 100 :=
  ⟨List.Perm.swap _ _ _,
    portfolio_order_irrelevant
      (Portfolio.mk [Position.mk (10 : ℝ) (EuropeanCall 100 0.25 1 0.05 500),
        Position.mk 10 (AmericanCall 100 0.25 1 0.05 500)])
      (Portfolio.mk [Position.mk (10 : ℝ) (AmericanCall 100 0.25 1 0.05 500),
        Position.mk 10 (EuropeanCall 100 0.25 1 0.05 500)]) 100 (List.Perm.swap _ _ _)⟩

/-- Claim C13 (valuation dispatch).  For every spot and every depth argument, `getValue`
of a European call or put returns its closed-form value, whatever the depth, and
`getValue` of an American call or put is `calcBinomialTreeValue` at that depth. -/
theorem valuation_dispatch (K σ T r : ℝ) (dp depth : Int) (spot : ℝ) :
    (EuropeanCall K σ T r dp).getValue spot depth =
        some ((EuropeanCall K σ T r dp).calcBlackScholesValue spot) ∧
      (EuropeanPut K σ T r dp).getValue spot depth =
        some ((EuropeanPut K σ T r dp).calcBlackScholesValue spot) ∧
      (AmericanCall K σ T r dp).getValue spot depth =
        (AmericanCall K σ T r dp).calcBinomialTreeValue spot depth ∧
      (AmericanPut K σ T r dp).getValue spot depth =
        (AmericanPut K σ T r dp).calcBinomialTreeValue spot depth :=
  ⟨rfl, rfl, rfl, rfl⟩

/-- Claim C14 (exercise-value policy).  For every spot and time `t`: a European call or
put has exercise value `getIntrinsicValue(spot)` when `t` equals its expiry `T` and 0
otherwise; an American call or put has exercise value `getIntrinsicValue(spot)` at
every `t`; and `getIntrinsicValue` is `max(spot - strike, 0)` for the two calls and
`max(strike - spot, 0)` for the two puts. -/
theorem exercise_value_policy (K σ T r : ℝ) (dp : Int) (spot t : ℝ) :
    ((EuropeanCall K σ T r dp).getCurrentExerciseValue spot t =
        (if t = T then (EuropeanCall K σ T r dp).getIntrinsicValue spot else 0) ∧
      (EuropeanPut K σ T r dp).getCurrentExerciseValue spot t =
        (if t = T then (EuropeanPut K σ T r dp).getIntrinsicValue spot else 0) ∧
      (AmericanCall K σ T r dp).getCurrentExerciseValue spot t =
        (AmericanCall K σ T r dp).getIntrinsicValue spot ∧
      (AmericanPut K σ T r dp).getCurrentExerciseValue spot t =
        (AmericanPut K σ T r dp).getIntrinsicValue spot) ∧
    ((EuropeanCall K σ T r dp).getIntrinsicValue spot = max (spot - K) 0 ∧
      (EuropeanPut K σ T r dp).getIntrinsicValue spot = max (K - spot) 0 ∧
      (AmericanCall K σ T r dp).getIntrinsicValue spot = max (spot - K) 0 ∧
      (AmericanPut K σ T r dp).getIntrinsicValue spot = max (K - spot) 0) :=
  ⟨⟨rfl, rfl, rfl, rfl⟩, ⟨rfl, rfl, rfl, rfl⟩⟩

/-- Claim C15 (the in-place loop is the backward induction).  For every variant,
`K > 0`, `σ > 0`, `T > 0`, any rate `r`, `spot > 0` and depth `n ≥ 1`,
`calcBinomialTreeValue(spot, n)` returns `V(0,0)` of the backward induction of the
specification (`backwardInductionSpec`, `n` steps before expiry, node 0): overwriting
`vals[i]` in increasing `i` loses no value that is still needed. -/
theorem lattice_computes_backward_induction (v : Variant) (spot K σ T r : ℝ) (dp n : Int)
    (hS : 0 < spot) (hK : 0 < K) (hσ : 0 < σ) (hT : 0 < T) (hn : 1 ≤ n) :
    Instrument.calcBinomialTreeValue
        { variant := v, Strike := K, Sigma := σ, T := T, RiskFreeRate := r, dp := dp } spot n =
      some (backwardInductionSpec
        { variant := v, Strike := K, Sigma := σ, T := T, RiskFreeRate := r, dp := dp }
        spot n n.toNat 0) := by
  have _ := hS; have _ := hK; have _ := hσ; have _ := hT
  exact calcBinomialTreeValue_eq_spec _ spot n (by omega)

/-- Claim C15 at the American put of `main` with depth 500. -/
theorem lattice_computes_backward_induction_witness :
    (0 : ℝ) < 100 ∧ (0 : ℝ) < 100 ∧ (0 : ℝ) < 0.25 ∧ (0 : ℝ) < 1 ∧ (1 : Int) ≤ 500 ∧
      Instrument.calcBinomialTreeValue
          { variant := Variant.AmericanPut, Strike := (100 : ℝ), Sigma := 0.25, T := 1,
            RiskFreeRate := 0.05, dp := 500 } 100 500 =
        some (backwardInductionSpec
          { variant := Variant.AmericanPut, Strike := (100 : ℝ), Sigma := 0.25, T := 1,
            RiskFreeRate := 0.05, dp := 500 } 100 500 (500 : Int).toNat 0) :=
  ⟨by norm_num, by norm_num, by norm_num, by norm_num, by norm_num,
    lattice_computes_backward_induction Variant.AmericanPut 100 100 0.25 1 0.05 500 500
      (by norm_num) (by norm_num) (by norm_num) (by norm_num) (by norm_num)⟩

/-- The lattice parameters of the European put with strike 100, sigma 0.1, expiry 4,
rate 0.25 at depth 1: `dt = 4`, `u = exp(1/5)`, discount `exp(-1)`, and `p > 1`. -/
theorem put_example_parameters :
    treeDt (EuropeanPut (100 : ℝ) 0.1 4 0.25 1) 1 = 4 ∧
      treeU (EuropeanPut (100 : ℝ) 0.1 4 0.25 1) 1 = Real.exp (1 / 5) ∧
      1 < treeP (EuropeanPut (100 : ℝ) 0.1 4 0.25 1) 1 := by
  have hdt : treeDt (EuropeanPut (100 : ℝ) 0.1 4 0.25 1) 1 = 4 := by
    simp only [treeDt, EuropeanPut]; norm_num
  have hsqrt : Real.sqrt 4 = 2 := by
    rw [show (4 : ℝ) = 2 ^ 2 by norm_num]
    exact Real.sqrt_sq (by norm_num)
  have hu : treeU (EuropeanPut (100 : ℝ) 0.1 4 0.25 1) 1 = Real.exp (1 / 5) := by
    unfold treeU
    rw [hdt, sqrt_real, exp_real, hsqrt]
    simp only [EuropeanPut]
    norm_num
  have hr : (EuropeanPut (100 : ℝ) 0.1 4 0.25 1).RiskFreeRate = 0.25 := rfl
  obtain ⟨hw1, -, -, -, -⟩ := exp_fifth_bounds
  refine ⟨hdt, hu, ?_⟩
  unfold treeP
  rw [hu, hdt, hr, exp_real]
  have hw0 : 0 < Real.exp (1 / 5) := Real.exp_pos _
  have hinv : 1 / Real.exp (1 / 5) < 1 := by
    rw [div_lt_one hw0]; linarith
  have hE : Real.exp (1 / 5) < Real.exp (0.25 * 4) := by
    apply Real.exp_lt_exp.mpr; norm_num
  rw [lt_div_iff₀ (by linarith)]
  linarith

/-- Claim C16, as stated, fails: for the European put with strike 100, sigma 0.1, expiry
4 and rate 0.25 at spot 100 and depth 1 the lattice returns 0 (the continuation value is
negative because `p > 1`, and the node value is its maximum with the exercise value 0),
while the discounted binomial sum of the claim is negative. -/
theorem european_lattice_not_binomial :
    (EuropeanPut (100 : ℝ) 0.1 4 0.25 1).calcBinomialTreeValue 100 1 = some 0 ∧
      discountedBinomialSpec (EuropeanPut (100 : ℝ) 0.1 4 0.25 1) 100 1 < 0 := by
  obtain ⟨hdt, hu, hp⟩ := put_example_parameters
  obtain ⟨hw1, hw2, hx1, hx2, hxw⟩ := exp_fifth_bounds
  have hT : (EuropeanPut (100 : ℝ) 0.1 4 0.25 1).T = 4 := rfl
  have hint : ∀ s : ℝ, (EuropeanPut (100 : ℝ) 0.1 4 0.25 1).getIntrinsicValue s =
      max (100 - s) 0 := fun s => rfl
  have hup : max (100 - 100 * Real.exp (1 / 5)) 0 = 0 := max_eq_right (by linarith)
  have hdn : max (100 - 100 * Real.exp (-(1 / 5))) 0 = 100 - 100 * Real.exp (-(1 / 5)) :=
    max_eq_left (by linarith)
  have hdnpos : 0 < 100 - 100 * Real.exp (-(1 / 5)) := by linarith
  constructor
  · rw [calcBinomialTreeValue_one]
    have hlog : MathFns.log (treeU (EuropeanPut (100 : ℝ) 0.1 4 0.25 1) 1) = 1 / 5 := by
      rw [hu, log_real, Real.log_exp]
    have e1 : Real.exp (1 * (1 / 5)) = Real.exp (1 / 5) := by simp
    have em1 : Real.exp (-1 * (1 / 5)) = Real.exp (-(1 / 5)) := by norm_num
    have hex : ∀ s t : ℝ, (EuropeanPut (100 : ℝ) 0.1 4 0.25 1).getCurrentExerciseValue s t =
        if t = 4 then max (100 - s) 0 else 0 := fun s t => rfl
    have h44 : ¬ ((4 : ℝ) - 4 = 4) := by norm_num
    simp only [calcBinomialNodeValue_eq_max, hex, hlog, hdt, hT, exp_real, e1, em1, if_true,
      if_neg h44]
    rw [hup, hdn, mul_zero, zero_add]
    congr 1
    apply max_eq_left
    apply mul_nonpos_of_nonneg_of_nonpos (Real.exp_pos _).le
    exact mul_nonpos_of_nonpos_of_nonneg (by linarith) hdnpos.le
  · unfold discountedBinomialSpec
    rw [Finset.sum_range_succ, Finset.sum_range_one]
    have hz0 : treeU (EuropeanPut (100 : ℝ) 0.1 4 0.25 1) ((1 : Nat) : Int) ^
        (2 * ((0 : Nat) : Int) - ((1 : Nat) : Int)) = Real.exp (-(1 / 5)) := by
      have : (2 * ((0 : Nat) : Int) - ((1 : Nat) : Int)) = -1 := by norm_num
      rw [this, zpow_neg_one]
      have hu' : treeU (EuropeanPut (100 : ℝ) 0.1 4 0.25 1) ((1 : Nat) : Int) =
          Real.exp (1 / 5) := hu
      rw [hu', Real.exp_neg]
    have hz1 : treeU (EuropeanPut (100 : ℝ) 0.1 4 0.25 1) ((1 : Nat) : Int) ^
        (2 * ((1 : Nat) : Int) - ((1 : Nat) : Int)) = Real.exp (1 / 5) := by
      have : (2 * ((1 : Nat) : Int) - ((1 : Nat) : Int)) = 1 := by norm_num
      rw [this, zpow_one]
      exact hu
    rw [hz0, hz1, hint, hint, hup, hdn]
    have hp' : 1 < treeP (EuropeanPut (100 : ℝ) 0.1 4 0.25 1) ((1 : Nat) : Int) := hp
    simp only [Nat.choose_zero_right, Nat.cast_one, pow_zero, Nat.sub_zero, pow_one, one_mul,
      mul_zero, add_zero]
    apply mul_neg_of_pos_of_neg (Real.exp_pos _)
    exact mul_neg_of_neg_of_pos (by linarith) hdnpos

/-- Claim C16, amended (European lattice as discounted expectation).  For a European
call or put with `K > 0`, `σ > 0`, `T > 0`, any rate `r`, `spot > 0` and depth `n ≥ 1`
such that the lattice weight `p = (exp(r·dt) - 1/u)/(u - 1/u)` lies in `[0, 1]`,
`calcBinomialTreeValue(spot, n)` returns
`exp(-r·T)·Σ_{i=0..n} C(n,i)·p^i·(1-p)^(n-i)·intrinsicValue(spot·u^(2i-n))`. -/
theorem european_lattice_discounted_expectation (spot K σ T r : ℝ) (dp : Int) (n : Nat)
    (hS : 0 < spot) (hK : 0 < K) (hσ : 0 < σ) (hT : 0 < T) (hn : 1 ≤ n)
    (hp0 : 0 ≤ treeP (EuropeanCall K σ T r dp) (n : Int))
    (hp1 : treeP (EuropeanCall K σ T r dp) (n : Int) ≤ 1) :
    (EuropeanCall K σ T r dp).calcBinomialTreeValue spot (n : Int) =
        some (discountedBinomialSpec (EuropeanCall K σ T r dp) spot n) ∧
      (EuropeanPut K σ T r dp).calcBinomialTreeValue spot (n : Int) =
        some (discountedBinomialSpec (EuropeanPut K σ T r dp) spot n) := by
  have _ := hS; have _ := hK; have _ := hσ
  exact ⟨european_lattice_binomial (EuropeanCall K σ T r dp) (Or.inl rfl) spot n hn hT hp0 hp1,
    european_lattice_binomial (EuropeanPut K σ T r dp) (Or.inr rfl) spot n hn hT hp0 hp1⟩

/-- Claim C16, amended, at the European instruments of `main` with depth 500. -/
theorem european_lattice_discounted_expectation_witness :
    (0 : ℝ) < 100 ∧ (0 : ℝ) < 100 ∧ (0 : ℝ) < 0.25 ∧ (0 : ℝ) < 1 ∧ 1 ≤ 500 ∧
      0 ≤ treeP (EuropeanCall (100 : ℝ) 0.25 1 0.05 500) ((500 : Nat) : Int) ∧
      treeP (EuropeanCall (100 : ℝ) 0.25 1 0.05 500) ((500 : Nat) : Int) ≤ 1 ∧
      (EuropeanCall (100 : ℝ) 0.25 1 0.05 500).calcBinomialTreeValue 100 ((500 : Nat) : Int) =
        some (discountedBinomialSpec (EuropeanCall (100 : ℝ) 0.25 1 0.05 500) 100 500) ∧
      (EuropeanPut (100 : ℝ) 0.25 1 0.05 500).calcBinomialTreeValue 100 ((500 : Nat) : Int) =
        some (discountedBinomialSpec (EuropeanPut (100 : ℝ) 0.25 1 0.05 500) 100 500) :=
  ⟨by norm_num, by norm_num, by norm_num, by norm_num, by norm_num,
    main_weight_in_unit_interval.1, main_weight_in_unit_interval.2,
    european_lattice_discounted_expectation 100 100 0.25 1 0.05 500 500 (by norm_num)
      (by norm_num) (by norm_num) (by norm_num) (by norm_num) main_weight_in_unit_interval.1
      main_weight_in_unit_interval.2⟩

/-- Claim C17 (American value dominates immediate exercise).  For an American call or
put with `K > 0`, `σ > 0`, `T > 0`, any rate `r`, `spot > 0` and depth `n ≥ 1`,
`getValue(spot, n)` returns a value that is at least `getIntrinsicValue(spot)`. -/
theorem american_dominates_intrinsic (spot K σ T r : ℝ) (dp n : Int)
    (hS : 0 < spot) (hK : 0 < K) (hσ : 0 < σ) (hT : 0 < T) (hn : 1 ≤ n) :
    (∃ x, (AmericanCall K σ T r dp).getValue spot n = some x ∧
        (AmericanCall K σ T r dp).getIntrinsicValue spot ≤ x) ∧
      (∃ x, (AmericanPut K σ T r dp).getValue spot n = some x ∧
        (AmericanPut K σ T r dp).getIntrinsicValue spot ≤ x) := by
  have _ := hS; have _ := hK; have _ := hσ; have _ := hT
  exact ⟨american_ge_intrinsic (AmericanCall K σ T r dp) (Or.inl rfl) spot n hn,
    american_ge_intrinsic (AmericanPut K σ T r dp) (Or.inr rfl) spot n hn⟩

/-- Claim C17 at the American instruments of `main` with depth 500. -/
theorem american_dominates_intrinsic_witness :
    (0 : ℝ) < 100 ∧ (0 : ℝ) < 100 ∧ (0 : ℝ) < 0.25 ∧ (0 : ℝ) < 1 ∧ (1 : Int) ≤ 500 ∧
      (∃ x, (AmericanCall (100 : ℝ) 0.25 1 0.05 500).getValue 100 500 = some x ∧
        (AmericanCall (100 : ℝ) 0.25 1 0.05 500).getIntrinsicValue 100 ≤ x) ∧
      (∃ x, (AmericanPut (100 : ℝ) 0.25 1 0.05 500).getValue 100 500 = some x ∧
        (AmericanPut (100 : ℝ) 0.25 1 0.05 500).getIntrinsicValue 100 ≤ x) :=
  ⟨by norm_num, by norm_num, by norm_num, by norm_num, by norm_num,
    american_dominates_intrinsic 100 100 0.25 1 0.05 500 500 (by norm_num) (by norm_num)
      (by norm_num) (by norm_num) (by norm_num)⟩

/-- At every node the exercise value of a European instrument is at most that of the
American instrument of the same side and parameters. -/
theorem european_le_american_exercise (K σ T r : ℝ) (dp : Int) (s t : ℝ) :
    (EuropeanCall K σ T r dp).getCurrentExerciseValue s t ≤
        (AmericanCall K σ T r dp).getCurrentExerciseValue s t ∧
      (EuropeanPut K σ T r dp).getCurrentExerciseValue s t ≤
        (AmericanPut K σ T r dp).getCurrentExerciseValue s t := by
  constructor
  · show (if t = T then max (s - K) 0 else 0) ≤ max (s - K) 0
    split_ifs
    · exact le_refl _
    · exact le_max_right _ _
  · show (if t = T then max (K - s) 0 else 0) ≤ max (K - s) 0
    split_ifs
    · exact le_refl _
    · exact le_max_right _ _

/-- Claim C18 (American lattice dominates European lattice).  For identical strike,
sigma, `T`, `r` and side, `spot > 0` and depth `n ≥ 1`, and provided the weight
`p = (exp(r·dt) - d)/(u - d)` of the lattice satisfies `0 ≤ p ≤ 1`,
`calcBinomialTreeValue` of the American variant is at least `calcBinomialTreeValue` of
the European variant. -/
theorem american_lattice_ge_european (spot K σ T r : ℝ) (dp n : Int)
    (hS : 0 < spot) (hK : 0 < K) (hσ : 0 < σ) (hT : 0 < T) (hn : 1 ≤ n)
    (hp0 : 0 ≤ treeP (AmericanCall K σ T r dp) n)
    (hp1 : treeP (AmericanCall K σ T r dp) n ≤ 1) :
    (∃ e a, (EuropeanCall K σ T r dp).calcBinomialTreeValue spot n = some e ∧
        (AmericanCall K σ T r dp).calcBinomialTreeValue spot n = some a ∧ e ≤ a) ∧
      (∃ e a, (EuropeanPut K σ T r dp).calcBinomialTreeValue spot n = some e ∧
        (AmericanPut K σ T r dp).calcBinomialTreeValue spot n = some a ∧ e ≤ a) := by
  have _ := hS; have _ := hK; have _ := hσ; have _ := hT
  constructor
  · exact calcBinomialTreeValue_le_instruments (EuropeanCall K σ T r dp)
      (AmericanCall K σ T r dp) spot n (by omega) rfl rfl rfl hp0 hp1 (Real.exp_pos _).le
      (fun s t => (european_le_american_exercise K σ T r dp s t).1)
  · exact calcBinomialTreeValue_le_instruments (EuropeanPut K σ T r dp)
      (AmericanPut K σ T r dp) spot n (by omega) rfl rfl rfl hp0 hp1 (Real.exp_pos _).le
      (fun s t => (european_le_american_exercise K σ T r dp s t).2)

/-- Claim C18 at the instruments of `main` with depth 500. -/
theorem american_lattice_ge_european_witness :
    (0 : ℝ) < 100 ∧ (0 : ℝ) < 100 ∧ (0 : ℝ) < 0.25 ∧ (0 : ℝ) < 1 ∧ (1 : Int) ≤ 500 ∧
      0 ≤ treeP (AmericanCall (100 : ℝ) 0.25 1 0.05 500) 500 ∧
      treeP (AmericanCall (100 : ℝ) 0.25 1 0.05 500) 500 ≤ 1 ∧
      (∃ e a, (EuropeanCall (100 : ℝ) 0.25 1 0.05 500).calcBinomialTreeValue 100 500 = some e ∧
        (AmericanCall (100 : ℝ) 0.25 1 0.05 500).calcBinomialTreeValue 100 500 = some a ∧
        e ≤ a) ∧
      (∃ e a, (EuropeanPut (100 : ℝ) 0.25 1 0.05 500).calcBinomialTreeValue 100 500 = some e ∧
        (AmericanPut (100 : ℝ) 0.25 1 0.05 500).calcBinomialTreeValue 100 500 = some a ∧
        e ≤ a) :=
  ⟨by norm_num, by norm_num, by norm_num, by norm_num, by norm_num,
    main_weight_in_unit_interval.1, main_weight_in_unit_interval.2,
    american_lattice_ge_european 100 100 0.25 1 0.05 500 500 (by norm_num) (by norm_num)
      (by norm_num) (by norm_num) (by norm_num) main_weight_in_unit_interval.1
      main_weight_in_unit_interval.2⟩

/-- Claim C19 (portfolio delta).  For every portfolio and spot, `Portfolio.getDelta(spot)`
returns `Portfolio.getValue(1.01·spot) - Portfolio.getValue(spot)` (in exact real
arithmetic). -/
theorem portfolio_delta_eq_bump (P : Portfolio ℝ) (spot : ℝ) :
    ∃ a b, P.getValue (1.01 * spot) = some a ∧ P.getValue spot = some b ∧
      P.getDelta spot = some (a - b) := by
  refine ⟨_, _, value_loop_eq_sum P.Positions (1.01 * spot) 0,
    value_loop_eq_sum P.Positions spot 0, ?_⟩
  unfold Portfolio.getDelta
  rw [delta_loop_eq_sum, sum_map_weighted_sub]
  congr 1
  ring

/-- Claim C20 (buffer accesses are in range).  For every instrument (of any of the four
variants), spot and depth `n ≥ 1`: the terminal layer fills exactly `n + 1` entries; on
a buffer of `n + 1` entries every pass of the inner loop (`0 ≤ i ≤ j ≤ n - 1`) finds
`vals[i+1]` and `vals[i]` inside the buffer, writes `vals[i]` and keeps the `n + 1`
entries; and the whole call, final read of `vals[0]` included, returns a value: the
out-of-range result is never produced. -/
theorem lattice_accesses_in_range (o : Instrument ℝ) (spot : ℝ) (n : Int) (hn : 1 ≤ n) :
    (terminalLayer o spot (treeU o n) n).length = n.toNat + 1 ∧
      (∀ (vals : List ℝ) (t : ℝ) (j i : Nat), vals.length = n.toNat + 1 → j + 1 ≤ n.toNat →
        i ≤ j →
        (∃ up dn, vals[i + 1]? = some up ∧ vals[i]? = some dn) ∧
        ∃ vals', nodeStep o spot (treeU o n) (treeP o n) (treeDt o n) t j vals i = some vals' ∧
          vals'.length = n.toNat + 1) ∧
      ∃ x, o.calcBinomialTreeValue spot n = some x := by
  refine ⟨?_, ?_, ?_⟩
  · rw [terminalLayer_length]; omega
  · intro vals t j i hlen hj hi
    have h1 : i + 1 < vals.length := by omega
    refine ⟨⟨vals[i + 1], vals[i], List.getElem?_eq_getElem h1,
      List.getElem?_eq_getElem (by omega)⟩, _, nodeStep_eq _ _ _ _ _ _ _ vals i h1, ?_⟩
    rw [List.length_set, hlen]
  · obtain ⟨t, up, dn, h⟩ := calcBinomialTreeValue_last o spot n hn
    exact ⟨_, h⟩

/-- Claim C20 at the American put of the first test of `main`, depth 20000. -/
theorem lattice_accesses_in_range_witness :
    (1 : Int) ≤ 20000 ∧
    ((terminalLayer (AmericanPut (50 : ℝ) 0.2 0.5 0.1 20000) 50
        (treeU (AmericanPut (50 : ℝ) 0.2 0.5 0.1 20000) 20000) 20000).length =
        (20000 : Int).toNat + 1 ∧
      (∀ (vals : List ℝ) (t : ℝ) (j i : Nat), vals.length = (20000 : Int).toNat + 1 →
        j + 1 ≤ (20000 : Int).toNat → i ≤ j →
        (∃ up dn, vals[i + 1]? = some up ∧ vals[i]? = some dn) ∧
        ∃ vals', nodeStep (AmericanPut (50 : ℝ) 0.2 0.5 0.1 20000) 50
            (treeU (AmericanPut (50 : ℝ) 0.2 0.5 0.1 20000) 20000)
            (treeP (AmericanPut (50 : ℝ) 0.2 0.5 0.1 20000) 20000)
            (treeDt (AmericanPut (50 : ℝ) 0.2 0.5 0.1 20000) 20000) t j vals i = some vals' ∧
          vals'.length = (20000 : Int).toNat + 1) ∧
      ∃ x, (AmericanPut (50 : ℝ) 0.2 0.5 0.1 20000).calcBinomialTreeValue 50 20000 = some x) :=
  ⟨by norm_num, lattice_accesses_in_range (AmericanPut 50 0.2 0.5 0.1 20000) 50 20000
    (by norm_num)⟩

end Claims

end OptionPricing
